import Mathlib

/-!
A shallow embedding of the ScribeDown markdown dialect front end:
the line-oriented tokenizer (src/lexer.js), the token cursor
(Buffer), the recursive-descent parser (Parser) and the node
model with its HTML renderer (src/ast.js).  Definitions follow the
JavaScript source; machine behaviour such as `undefined` property
reads and regex coercion of `undefined` to the string "undefined"
is modelled explicitly.
-/

namespace ScribeDown

/-! ### Character utilities (JavaScript semantics) -/

/-- The JavaScript WhiteSpace and LineTerminator characters removed by
`String.prototype.trim`. -/
def jsWhitespace (c : Char) : Bool :=
  c == ' ' || c == '\t' || c == '\n' || c == '\r' ||
  c.toNat == 11 || c.toNat == 12 || c.toNat == 0xa0 || c.toNat == 0x1680 ||
  (0x2000 ≤ c.toNat && c.toNat ≤ 0x200a) ||
  c.toNat == 0x2028 || c.toNat == 0x2029 || c.toNat == 0x202f ||
  c.toNat == 0x205f || c.toNat == 0x3000 || c.toNat == 0xfeff

/-- JavaScript `String.prototype.trim` on a list of characters. -/
def jsTrimL (cs : List Char) : List Char :=
  (((cs.dropWhile jsWhitespace).reverse).dropWhile jsWhitespace).reverse

/-- JavaScript `text.split('\n')`: splits at every newline, keeping empty
pieces, and yields one (possibly empty) piece even for the empty string. -/
def splitNL : List Char → List (List Char)
  | [] => [[]]
  | c :: cs =>
    if c = '\n' then [] :: splitNL cs
    else
      match splitNL cs with
      | l :: ls => (c :: l) :: ls
      | [] => [[c]]

/-! ### Tokens (src/lexer.js) -/

/-- The token kinds of the `Tok` enumeration. -/
inductive Tok where
  | TEXT
  | BLOCK_QUOTE
  | END_BLOCK_QUOTE
  | LIST_ITEM
  | END_LIST_ITEM
  | LIST
  | END_LIST
  | CODE_BLOCK
  | BLANK_LINE
deriving DecidableEq, Repr

/-- A list frame: the anchor column of the marker and the content-indent
threshold (`{ anchor, indent }` objects pushed on `this.lists`). -/
structure Frame where
  anchor : Nat
  indent : Nat
deriving DecidableEq, Repr

/-- The `data` payload of a token: absent, a number, a list frame, or the
`[indentation, frame]` pair attached to a sibling END_LIST_ITEM. -/
inductive TokData where
  | none
  | nat (n : Nat)
  | frame (f : Frame)
  | sib (n : Nat) (f : Frame)
deriving DecidableEq, Repr

/-- A token: kind, string value, and optional structural payload. -/
structure Token where
  tok : Tok
  val : String
  data : TokData
deriving DecidableEq, Repr

instance : Inhabited Token := ⟨⟨Tok.TEXT, "", TokData.none⟩⟩

/-- A single-character TEXT token, as pushed by `tokenizeLine`. -/
def textTok (c : Char) : Token := ⟨Tok.TEXT, String.mk [c], TokData.none⟩

/-! ### Lexer state and helpers -/

/-- The state the lexer threads across lines: current block-quote depth,
the stack of open list frames (innermost first here), and the indentation
baseline set by the previous line. -/
structure LexState where
  blockQuote : Nat
  lists : List Frame
  indentation : Nat
deriving DecidableEq, Repr

/-- Consume leading spaces, at most `cap` of them; returns the count and
the remaining characters (the indentation-scanning loop of
`tokenizeBlock`). -/
def takeSpaces : Nat → List Char → Nat × List Char
  | 0, cs => (0, cs)
  | _ + 1, [] => (0, [])
  | cap + 1, c :: cs =>
    if c = ' ' then
      let (n, r) := takeSpaces cap cs
      (n + 1, r)
    else (0, c :: cs)

/-- Pop every open list frame whose anchor exceeds the line's indentation,
emitting an END_LIST_ITEM/END_LIST pair per popped frame, innermost
first. -/
def popLists : List Frame → Nat → List Token × List Frame
  | [], _ => ([], [])
  | fr :: l, ind =>
    if ind < fr.anchor then
      let (ts, l') := popLists l ind
      (⟨Tok.END_LIST_ITEM, "", TokData.nat fr.anchor⟩ ::
       ⟨Tok.END_LIST, "", TokData.nat fr.anchor⟩ :: ts, l')
    else ([], fr :: l)

/-- The block-quote marker loop: repeatedly consume a '>' optionally
followed by one space or tab, returning the repetition count, the
consumed characters, and the rest of the line. -/
def quoteMarkers : List Char → Nat × List Char × List Char
  | [] => (0, [], [])
  | [c] => if c = '>' then (1, ['>'], []) else (0, [], [c])
  | c :: c₂ :: cs' =>
    if c = '>' then
      if c₂ = ' ' ∨ c₂ = '\t' then
        let (n, v, r) := quoteMarkers cs'
        (n + 1, '>' :: c₂ :: v, r)
      else
        let (n, v, r) := quoteMarkers (c₂ :: cs')
        (n + 1, '>' :: v, r)
    else (0, [], c :: c₂ :: cs')

/-- `for (i = depth; i > count; i--) push(END_BLOCK_QUOTE('', i))`:
emit the closing block-quote sentinels, innermost first. -/
def endBQGo : Nat → Nat → List Token
  | 0, _ => []
  | n + 1, i => ⟨Tok.END_BLOCK_QUOTE, "", TokData.nat i⟩ :: endBQGo n (i - 1)

/-- Close block-quote levels from `depth` down to `count + 1`. -/
def endBQs (depth count : Nat) : List Token := endBQGo (depth - count) depth

/-- `for (i = depth+1; i <= count; i++) push(BLOCK_QUOTE(i == count ? val : '', i))`:
emit the opening block-quote sentinels, outermost first; only the
innermost carries the marker text. -/
def openBQGo : Nat → Nat → String → List Token
  | 0, _, _ => []
  | n + 1, i, val =>
    ⟨Tok.BLOCK_QUOTE, if n = 0 then val else "", TokData.nat (i + 1)⟩ ::
      openBQGo n (i + 1) val

/-- Open block-quote levels from `depth + 1` up to `count`. -/
def openBQs (depth count : Nat) (val : String) : List Token :=
  openBQGo (count - depth) depth val

/-- Close one END_LIST_ITEM/END_LIST pair per open frame, innermost
first (the list half of `resetContext`). -/
def closeFrames : List Frame → List Token
  | [] => []
  | fr :: l =>
    ⟨Tok.END_LIST_ITEM, "", TokData.nat fr.anchor⟩ ::
    ⟨Tok.END_LIST, "", TokData.nat fr.anchor⟩ :: closeFrames l

/-- `Lexer.resetContext`: flush all open block quotes (innermost first),
then all open lists (innermost first), and zero the indentation
baseline. -/
def resetContext (s : LexState) : List Token × LexState :=
  (endBQs s.blockQuote 0 ++ closeFrames s.lists, ⟨0, [], 0⟩)

/-- The decision made for a new list-item line after dedent handling: a
sibling item (indentation below the open list's indent threshold) emits
END_LIST_ITEM and leaves the stack alone; otherwise a fresh LIST frame
is emitted and pushed. -/
def listDecision (lists : List Frame) (ind listInd : Nat) : List Token × List Frame :=
  match lists with
  | fr :: l =>
    if ind < fr.indent then
      ([⟨Tok.END_LIST_ITEM, "", TokData.sib ind fr⟩], fr :: l)
    else
      ([⟨Tok.LIST, "", TokData.frame ⟨ind, listInd⟩⟩], ⟨ind, listInd⟩ :: fr :: l)
  | [] => ([⟨Tok.LIST, "", TokData.frame ⟨ind, listInd⟩⟩], [⟨ind, listInd⟩])

/-- `Lexer.tokenizeBlock`: scan the line's block-structure prefix.
Returns the emitted tokens, the updated state, and the characters not
yet consumed (which `tokenizeLine` will emit as TEXT tokens). -/
def tokenizeBlock (s : LexState) (line : List Char) : List Token × LexState × List Char :=
  let (ind, cs₁) := takeSpaces (s.indentation + 4) line
  let (closeToks, lists₁) := popLists s.lists ind
  if ind = s.indentation + 4 then
    (closeToks ++ [⟨Tok.CODE_BLOCK, String.mk cs₁, TokData.nat ind⟩],
     { s with lists := lists₁ }, [])
  else
    match cs₁ with
    | c :: cs₂ =>
      if c = '-' ∨ c = '+' ∨ c = '*' then
        match cs₂ with
        | c₂ :: _ =>
          if c₂ = ' ' then
            let (post, cs₃) := takeSpaces 5 cs₂
            let itemInd := (post - 1) % 4 + 1
            let listInd := ind + 1 + itemInd
            let (structToks, lists₂) := listDecision lists₁ ind listInd
            let liTok : Token :=
              ⟨Tok.LIST_ITEM, String.mk (c :: List.replicate itemInd ' '),
               TokData.frame ⟨ind, listInd⟩⟩
            if post = 5 then
              (closeToks ++ structToks ++
                 [liTok, ⟨Tok.CODE_BLOCK, String.mk cs₃, TokData.nat (listInd + 4)⟩],
               ⟨s.blockQuote, lists₂, listInd⟩, [])
            else
              (closeToks ++ structToks ++ [liTok], ⟨s.blockQuote, lists₂, listInd⟩, cs₃)
          else
            (closeToks ++ [⟨Tok.TEXT, String.mk [c], TokData.none⟩],
             { s with lists := lists₁ }, cs₂)
        | [] =>
          (closeToks ++ [⟨Tok.TEXT, String.mk [c], TokData.none⟩],
           { s with lists := lists₁ }, [])
      else if c = '>' then
        let (count₀, val, rest) := quoteMarkers (c :: cs₂)
        let count :=
          if count₀ < s.blockQuote ∧ jsTrimL val ≠ jsTrimL line then s.blockQuote
          else count₀
        (closeToks ++ endBQs s.blockQuote count ++ openBQs s.blockQuote count (String.mk val),
         ⟨count, lists₁, s.indentation⟩, rest)
      else
        (closeToks, { s with lists := lists₁ }, c :: cs₂)
    | [] => (closeToks, { s with lists := lists₁ }, [])

/-- `Lexer.tokenizeLine`: a blank line flushes all contexts and emits a
single BLANK_LINE; otherwise the block prefix is scanned and every
remaining character becomes one TEXT token. -/
def tokenizeLine (s : LexState) (line : List Char) : List Token × LexState :=
  if jsTrimL line = [] then
    let (ts, s') := resetContext s
    (ts ++ [⟨Tok.BLANK_LINE, "", TokData.none⟩], s')
  else
    let (bts, s', rest) := tokenizeBlock s line
    (bts ++ rest.map textTok, s')

/-- Tokenize a list of lines in order, threading the lexer state. -/
def tokenizeLines : LexState → List (List Char) → List Token × LexState
  | s, [] => ([], s)
  | s, l :: ls =>
    let (ts, s') := tokenizeLine s l
    let (rest, s'') := tokenizeLines s' ls
    (ts ++ rest, s'')

/-- The lines the lexer scans: the input split at newlines, each piece
newline-terminated (`text.split('\n').map(line => line + '\n')`). -/
def lexLines (text : String) : List (List Char) :=
  (splitNL text.toList).map (· ++ ['\n'])

/-- `Lexer.tokenize`: tokenize every line from the initial state, then
flush any still-open contexts. -/
def tokenize (text : String) : List Token :=
  let (ts, s) := tokenizeLines ⟨0, [], 0⟩ (lexLines text)
  ts ++ (resetContext s).1

/-! ### Document tree nodes and HTML rendering (src/ast.js) -/

/-- The closed set of document-tree node variants.  Each container owns
its children; Text, CodeBlock and Error own only a string. -/
inductive Node where
  | document (blocks : List Node)
  | header (level : Nat) (content : List Node)
  | table (header : List Node) (rows : List (List Node))
  | blockQuote (blocks : List Node)
  | codeBlock (text : String)
  | list (items : List Node)
  | listItem (blocks : List Node)
  | paragraph (lines : List Node)
  | line (content : List Node)
  | style (type : String) (content : List Node)
  | text (t : String)
  | error (t : String)
deriving Repr

mutual

/-- The `html()` method of each node variant, composing children's
renders exactly as src/ast.js does (no HTML escaping). -/
def Node.html : Node → String
  | .document bs => String.intercalate "\n" (htmlList bs)
  | .header lvl content =>
      "<h" ++ toString lvl ++ ">" ++ String.join (htmlList content) ++
      "</h" ++ toString lvl ++ ">"
  | .table hdr rows =>
      "<table>\n<thead>" ++ String.join (htmlCells hdr) ++ "</thead>\n<tbody>\n" ++
      String.join (htmlRows rows) ++ "</tbody>\n</table>"
  | .blockQuote bs => "<blockquote>" ++ String.join (htmlList bs) ++ "</blockquote>"
  | .codeBlock t => "<pre><code>" ++ t ++ "</code></pre>"
  | .list items => "<ul>\n" ++ String.intercalate "\n" (htmlList items) ++ "\n</ul>"
  | .listItem bs => "<li>" ++ String.join (htmlList bs) ++ "</li>"
  | .paragraph ls => "<p>" ++ String.intercalate "<br>" (htmlList ls) ++ "</p>"
  | .line c => String.join (htmlList c)
  | .style ty c => "<" ++ ty ++ ">" ++ String.join (htmlList c) ++ "</" ++ ty ++ ">"
  | .text t => t
  | .error t => "<span style=\"color: red;\">" ++ t ++ "</span>"

/-- Render a list of sibling nodes. -/
def htmlList : List Node → List String
  | [] => []
  | n :: ns => n.html :: htmlList ns

/-- Render table header cells (`<th>` wrappers). -/
def htmlCells : List Node → List String
  | [] => []
  | n :: ns => ("<th>" ++ n.html ++ "</th>") :: htmlCells ns

/-- Render table body rows. -/
def htmlRows : List (List Node) → List String
  | [] => []
  | r :: rs => ("\t<tr>" ++ String.join (htmlRow r) ++ "</tr>\n") :: htmlRows rs

/-- Render the cells of one table body row (`<td>` wrappers). -/
def htmlRow : List Node → List String
  | [] => []
  | n :: ns => ("<td>" ++ n.html ++ "</td>") :: htmlRow ns

end

/-! ### Token cursor (Buffer) and JavaScript error model -/

/-- The two failure kinds the parser run can produce: a thrown
`ParseError`, or a JavaScript `TypeError` from reading a property of
`undefined`. -/
inductive JsError where
  | parseError (msg : String)
  | typeError (msg : String)
deriving DecidableEq, Repr

/-- The message of the TypeError raised by reading `.val` of
`undefined`. -/
def undefValMsg : String := "Cannot read properties of undefined (reading 'val')"

/-- The remaining-token view of the Buffer (forward-only cursor). -/
abbrev Toks := List Token

/-- A regex character-class test applied JS-style to a string:
`test(str)` holds when some character of the string is in the class;
`undefined` is coerced to the string "undefined". -/
def reTestStr (r : Char → Bool) (v : String) : Bool := v.toList.any r

/-- `peek()?.val`, with `undefined` coerced for a later regex test. -/
def peekValStr (ts : Toks) : String :=
  match ts.head? with
  | some t => t.val
  | none => "undefined"

/-- Result of a Buffer primitive: either a value with the tokens left, or
an error with the tokens left at the throw point (the cursor does not
roll back on a throw). -/
abbrev Prim (α : Type) := Except (JsError × Toks) (α × Toks)

/-- `Buffer.expect` with a string matcher: consume one token; it must
exist and its value must equal `expected`. -/
def expectVal (s : String) : Toks → Prim Token
  | [] => .error (.parseError ("Expected token \"" ++ s ++ "\", found \"EOF\""), [])
  | t :: ts =>
    if t.val = s then .ok (t, ts)
    else .error (.parseError ("Expected token \"" ++ s ++ "\", found \"" ++ t.val ++ "\""), ts)

/-- `Buffer.expect` with a regex matcher: consume one token and test the
class against its value; at end of stream the test runs against
"undefined" and, when it passes, the JS function returns `undefined`
(modelled as `none`). -/
def expectRe (r : Char → Bool) (src : String) : Toks → Prim (Option Token)
  | [] =>
    if reTestStr r "undefined" then .ok (none, [])
    else .error (.parseError ("Expected token \"" ++ src ++ "\", found \"EOF\""), [])
  | t :: ts =>
    if reTestStr r t.val then .ok (some t, ts)
    else .error (.parseError ("Expected token \"" ++ src ++ "\", found \"" ++ t.val ++ "\""), ts)

/-- `Buffer.expectAll` with a regex matcher: concatenate values while the
upcoming value matches.  At end of stream a class matching "undefined"
makes `expect` return `undefined`, whose `.val` read throws a
TypeError. -/
def expectAllRe (r : Char → Bool) : Toks → Prim String
  | [] =>
    if reTestStr r "undefined" then .error (.typeError undefValMsg, [])
    else .ok ("", [])
  | t :: ts =>
    if reTestStr r t.val then
      match expectAllRe r ts with
      | .ok (s, ts') => .ok (t.val ++ s, ts')
      | .error e => .error e
    else .ok ("", t :: ts)

/-- `Buffer.expectAll` with a string matcher: concatenate values while
the upcoming value equals `s`; never fails. -/
def expectAllVal (s : String) : Toks → String × Toks
  | [] => ("", [])
  | t :: ts =>
    if t.val = s then
      let (f, ts') := expectAllVal s ts
      (t.val ++ f, ts')
    else ("", t :: ts)

/-- `Buffer.expectOrEOF`: a no-op at end of stream, otherwise
`expect`. -/
def expectOrEOF (s : String) : Toks → Prim Unit
  | [] => .ok ((), [])
  | t :: ts =>
    if t.val = s then .ok ((), ts)
    else .error (.parseError ("Expected token \"" ++ s ++ "\", found \"" ++ t.val ++ "\""), ts)

/-! ### Parser (recursive descent, fuel-indexed) -/

/-- Result of a fuel-indexed parser function: success or a thrown error,
both carrying the cursor position, or `out` when the fuel bound was hit
(the JS code would still be looping). -/
inductive PRes (α : Type) where
  | ok (a : α) (ts : Toks)
  | err (e : JsError) (ts : Toks)
  | out
deriving Repr

/-- Sequencing for parser results. -/
def PRes.bind : PRes α → (α → Toks → PRes β) → PRes β
  | .ok a ts, f => f a ts
  | .err e ts, _ => .err e ts
  | .out, _ => .out

/-- Lift a Buffer primitive into a parser result. -/
def PRes.ofPrim : Prim α → PRes α
  | .ok (a, ts) => .ok a ts
  | .error (e, ts) => .err e ts

/-- The style characters `/[*_~^`+-]/` (the backtick written by code). -/
def isStyleChar (c : Char) : Bool :=
  c == '*' || c == '_' || c == '~' || c == '^' || c.toNat == 96 || c == '+' || c == '-'

/-- The layout characters `/[|]/`. -/
def isLayoutChar (c : Char) : Bool := c == '|'

/-- The `styleTypes` marker table of `parseStyle`. -/
def styleLookup (s : String) : Option String :=
  if s = "*" then some "em"
  else if s = "**" then some "strong"
  else if s = "_" then some "em"
  else if s = "__" then some "u"
  else if s = "~~" then some "s"
  else if s = "~" then some "sub"
  else if s = "^" then some "sup"
  else if s = "--" then some "small"
  else if s = "++" then some "big"
  else if s = "\x60" then some "code"
  else none

/-- `marker in styleTypes`. -/
def styleMem (s : String) : Bool := (styleLookup s).isSome

/-- JS one-character string indexing `s[i]`, `none` past the end. -/
def charAtStr (s : String) (i : Nat) : Option String :=
  (s.toList.get? i).map (fun c => String.mk [c])

/-- `Parser.parseText`: greedily concatenate consecutive TEXT tokens that
are neither style nor layout characters. -/
def parseTextAcc : Toks → String × Toks
  | [] => ("", [])
  | t :: ts =>
    if t.tok = Tok.TEXT ∧ ¬reTestStr isStyleChar t.val ∧ ¬reTestStr isLayoutChar t.val then
      let (s, ts') := parseTextAcc ts
      (t.val ++ s, ts')
    else ("", t :: ts)

/-- `Parser.parseCodeBlock`'s loop: concatenate consecutive CODE_BLOCK
token values. -/
def codeBlockAcc : Toks → String × Toks
  | [] => ("", [])
  | t :: ts =>
    if t.tok = Tok.CODE_BLOCK then
      let (s, ts') := codeBlockAcc ts
      (t.val ++ s, ts')
    else ("", t :: ts)

mutual

/-- The `parseDocument` while-loop: parse blocks until the stream is
exhausted; a thrown ParseError is caught here, the parser resynchronizes
with `expectAll(/[^\n]/) + expectAll('\n')` and an Error node keeps the
discarded text; any other error propagates. -/
def parseDocLoop : Nat → Toks → List Node → PRes (List Node)
  | 0, _, _ => .out
  | f + 1, ts, acc =>
    match ts with
    | [] => .ok acc []
    | _ :: _ =>
      match parseBlock f ts with
      | .ok b ts' => parseDocLoop f ts' (acc ++ [b])
      | .err (.parseError _) ts' =>
        match expectAllRe (fun c => !(c == '\n')) ts' with
        | .ok (t1, ts'') =>
          let (t2, ts₃) := expectAllVal "\n" ts''
          parseDocLoop f ts₃ (acc ++ [Node.error (t1 ++ t2)])
        | .error (e, ts'') => .err e ts''
      | .err (.typeError m) ts' => .err (.typeError m) ts'
      | .out => .out
  termination_by structural f ts acc => f

/-- `Parser.parseBlock`: skip one leading BLANK_LINE or newline, then
dispatch on the next token. -/
def parseBlock : Nat → Toks → PRes Node
  | 0, _ => .out
  | f + 1, ts =>
    let ts₀ :=
      match ts with
      | t :: rest => if t.tok = Tok.BLANK_LINE ∨ t.val = "\n" then rest else ts
      | [] => ts
    match ts₀.head? with
    | some t =>
      if t.val = "#" then parseHeader f ts₀
      else if t.val = "|" then parseTable f ts₀
      else if t.tok = Tok.BLOCK_QUOTE then parseBlockQuote f ts₀
      else if t.tok = Tok.CODE_BLOCK then
        let (txt, ts₁) := codeBlockAcc ts₀
        .ok (Node.codeBlock txt) ts₁
      else if t.tok = Tok.LIST then parseList f ts₀
      else parseParagraph f ts₀
    | none => parseParagraph f ts₀
  termination_by structural f ts => f

/-- `Parser.parseHeader`: a run of '#' as the level, inline content to
the newline, then an optional trailing newline. -/
def parseHeader : Nat → Toks → PRes Node
  | 0, _ => .out
  | f + 1, ts =>
    let (hashes, ts₁) := expectAllVal "#" ts
    (headerLoop f ts₁ []).bind fun content ts₂ =>
      (PRes.ofPrim (expectOrEOF "\n" ts₂)).bind fun _ ts₃ =>
        .ok (Node.header hashes.length content) ts₃
  termination_by structural f ts => f

/-- The inline-content loop of `parseHeader`. -/
def headerLoop : Nat → Toks → List Node → PRes (List Node)
  | 0, _, _ => .out
  | f + 1, ts, acc =>
    match ts with
    | [] => .ok acc []
    | t :: _ =>
      if t.val = "\n" then .ok acc ts
      else
        (parseInline f ts).bind fun nd ts' => headerLoop f ts' (acc ++ [nd])
  termination_by structural f ts acc => f

/-- `Parser.parseTable`: a header row, a separator row, then body rows
while the next token is '|'. -/
def parseTable : Nat → Toks → PRes Node
  | 0, _ => .out
  | f + 1, ts =>
    (parseTableRow f ts).bind fun hdr ts₁ =>
      (parseTableSep f ts₁).bind fun _ ts₂ =>
        (tableRowsLoop f ts₂ []).bind fun rows ts₃ =>
          .ok (Node.table hdr rows) ts₃
  termination_by structural f ts => f

/-- The body-row loop of `parseTable`. -/
def tableRowsLoop : Nat → Toks → List (List Node) → PRes (List (List Node))
  | 0, _, _ => .out
  | f + 1, ts, acc =>
    match ts with
    | t :: _ =>
      if t.val = "|" then
        (parseTableRow f ts).bind fun row ts' => tableRowsLoop f ts' (acc ++ [row])
      else .ok acc ts
    | [] => .ok acc []
  termination_by structural f ts acc => f

/-- `Parser.parseTableRow`: '|'-delimited inline cells up to the
newline. -/
def parseTableRow : Nat → Toks → PRes (List Node)
  | 0, _ => .out
  | f + 1, ts =>
    (PRes.ofPrim (expectVal "|" ts)).bind fun _ ts₁ =>
      (rowLoop f ts₁ []).bind fun row ts₂ =>
        (PRes.ofPrim (expectOrEOF "\n" ts₂)).bind fun _ ts₃ =>
          .ok row ts₃
  termination_by structural f ts => f

/-- The cell loop of `parseTableRow`. -/
def rowLoop : Nat → Toks → List Node → PRes (List Node)
  | 0, _, _ => .out
  | f + 1, ts, acc =>
    match ts with
    | [] => .ok acc []
    | t :: _ =>
      if t.val = "\n" then .ok acc ts
      else
        (parseInline f ts).bind fun col ts₁ =>
          (PRes.ofPrim (expectVal "|" ts₁)).bind fun _ ts₂ =>
            rowLoop f ts₂ (acc ++ [col])
  termination_by structural f ts acc => f

/-- `Parser.parseTableSep`: each separator cell is whitespace, a run of
'-', whitespace, then '|'; content is validated for shape and
discarded. -/
def parseTableSep : Nat → Toks → PRes (List String)
  | 0, _ => .out
  | f + 1, ts =>
    (PRes.ofPrim (expectVal "|" ts)).bind fun _ ts₁ =>
      (sepLoop f ts₁ []).bind fun row ts₂ =>
        (PRes.ofPrim (expectOrEOF "\n" ts₂)).bind fun _ ts₃ =>
          .ok row ts₃
  termination_by structural f ts => f

/-- The cell loop of `parseTableSep`. -/
def sepLoop : Nat → Toks → List String → PRes (List String)
  | 0, _, _ => .out
  | f + 1, ts, acc =>
    match ts with
    | [] => .ok acc []
    | t :: _ =>
      if t.val = "\n" then .ok acc ts
      else
        (PRes.ofPrim (expectAllRe (fun c => c == ' ' || c == '\t') ts)).bind fun s1 ts₁ =>
          let (s2, ts₂) := expectAllVal "-" ts₁
          (PRes.ofPrim (expectAllRe (fun c => c == ' ' || c == '\t') ts₂)).bind fun s3 ts₃ =>
            (PRes.ofPrim (expectVal "|" ts₃)).bind fun _ ts₄ =>
              sepLoop f ts₄ (acc ++ [s1 ++ s2 ++ s3])
  termination_by structural f ts acc => f

/-- `Parser.parseBlockQuote`: consume the BLOCK_QUOTE sentinel, parse at
least one block, keep parsing until END_BLOCK_QUOTE, consume it. -/
def parseBlockQuote : Nat → Toks → PRes Node
  | 0, _ => .out
  | f + 1, ts =>
    (parseBlock f (ts.drop 1)).bind fun b ts₁ =>
      bqLoop f ts₁ [b]
  termination_by structural f ts => f

/-- The inner-block loop of `parseBlockQuote`. -/
def bqLoop : Nat → Toks → List Node → PRes Node
  | 0, _, _ => .out
  | f + 1, ts, acc =>
    match ts.head? with
    | some t =>
      if t.tok = Tok.END_BLOCK_QUOTE then .ok (Node.blockQuote acc) (ts.drop 1)
      else (parseBlock f ts).bind fun b ts' => bqLoop f ts' (acc ++ [b])
    | none => (parseBlock f ts).bind fun b ts' => bqLoop f ts' (acc ++ [b])
  termination_by structural f ts acc => f

/-- `Parser.parseList`: consume LIST, parse items until END_LIST,
consume it. -/
def parseList : Nat → Toks → PRes Node
  | 0, _ => .out
  | f + 1, ts => listLoop f (ts.drop 1) []
  termination_by structural f ts => f

/-- The item loop of `parseList`. -/
def listLoop : Nat → Toks → List Node → PRes Node
  | 0, _, _ => .out
  | f + 1, ts, acc =>
    match ts.head? with
    | some t =>
      if t.tok = Tok.END_LIST then .ok (Node.list acc) (ts.drop 1)
      else (parseListItem f ts).bind fun item ts' => listLoop f ts' (acc ++ [item])
    | none => (parseListItem f ts).bind fun item ts' => listLoop f ts' (acc ++ [item])
  termination_by structural f ts acc => f

/-- `Parser.parseListItem`: consume LIST_ITEM, parse blocks until
END_LIST_ITEM, consume it. -/
def parseListItem : Nat → Toks → PRes Node
  | 0, _ => .out
  | f + 1, ts => itemLoop f (ts.drop 1) []
  termination_by structural f ts => f

/-- The block loop of `parseListItem`. -/
def itemLoop : Nat → Toks → List Node → PRes Node
  | 0, _, _ => .out
  | f + 1, ts, acc =>
    match ts.head? with
    | some t =>
      if t.tok = Tok.END_LIST_ITEM then .ok (Node.listItem acc) (ts.drop 1)
      else (parseBlock f ts).bind fun b ts' => itemLoop f ts' (acc ++ [b])
    | none => (parseBlock f ts).bind fun b ts' => itemLoop f ts' (acc ++ [b])
  termination_by structural f ts acc => f

/-- `Parser.parseParagraph`: inline content while the next token is TEXT
and not a newline. -/
def parseParagraph : Nat → Toks → PRes Node
  | 0, _ => .out
  | f + 1, ts => parLoop f ts []
  termination_by structural f ts => f

/-- The inline loop of `parseParagraph`. -/
def parLoop : Nat → Toks → List Node → PRes Node
  | 0, _, _ => .out
  | f + 1, ts, acc =>
    match ts with
    | [] => .ok (Node.paragraph acc) []
    | t :: _ =>
      if t.val ≠ "\n" ∧ t.tok = Tok.TEXT then
        (parseInline f ts).bind fun nd ts' => parLoop f ts' (acc ++ [nd])
      else .ok (Node.paragraph acc) ts
  termination_by structural f ts acc => f

/-- `Parser.parseInline`: dispatch on the next token's value; the
unguarded `peek().val` read throws a TypeError at end of stream. -/
def parseInline : Nat → Toks → PRes Node
  | 0, _ => .out
  | f + 1, ts =>
    match ts.head? with
    | none => .err (.typeError undefValMsg) ts
    | some t =>
      if reTestStr isStyleChar t.val then parseStyle f ts
      else
        let (s, ts') := parseTextAcc ts
        .ok (Node.text s) ts'
  termination_by structural f ts => f

/-- `Parser.parseStyle`: read the candidate opener, extend it greedily to
a two-character marker when that names a style, fall back to literal
text for unrecognized openers, then scan for the close. -/
def parseStyle : Nat → Toks → PRes Node
  | 0, _ => .out
  | f + 1, ts =>
    match expectRe isStyleChar "[*_~^\x60+-]" ts with
    | .error (e, ts₁) => .err e ts₁
    | .ok (none, ts₁) => .err (.typeError undefValMsg) ts₁
    | .ok (some t, ts₁) =>
      let start₀ := t.val
      if styleMem (start₀ ++ peekValStr ts₁) then
        match expectVal start₀ ts₁ with
        | .error (e, ts₂) => .err e ts₂
        | .ok (t₂, ts₂) =>
          let start := start₀ ++ t₂.val
          if styleMem start then styleLoop f start [] ts₂
          else .ok (Node.text start) ts₂
      else
        if styleMem start₀ then styleLoop f start₀ [] ts₁
        else .ok (Node.text start₀) ts₁
  termination_by structural f ts => f

/-- The close-scanning loop of `parseStyle`: on a token equal to the
marker's first character, attempt a close; a failed two-character close
keeps the consumed character as literal content; exhausting the TEXT
stream fails open to an un-styled span led by the literal opener. -/
def styleLoop : Nat → String → List Node → Toks → PRes Node
  | 0, _, _, _ => .out
  | f + 1, start, content, ts =>
    match ts with
    | [] => .ok (Node.style "span" (Node.text start :: content)) []
    | t :: ts' =>
      if t.tok = Tok.TEXT then
        if charAtStr start 0 = some t.val then
          if start.length = 1 then
            .ok (Node.style ((styleLookup start).getD "undefined") content) ts'
          else
            match ts' with
            | u :: ts'' =>
              if charAtStr start 1 = some u.val then
                .ok (Node.style ((styleLookup start).getD "undefined") content) ts''
              else
                (parseInline f ts').bind fun nd ts₃ =>
                  styleLoop f start
                    (content ++ [Node.text ((charAtStr start 0).getD "undefined"), nd]) ts₃
            | [] =>
              (parseInline f ts').bind fun nd ts₃ =>
                styleLoop f start
                  (content ++ [Node.text ((charAtStr start 0).getD "undefined"), nd]) ts₃
        else
          (parseInline f ts).bind fun nd ts₃ =>
            styleLoop f start (content ++ [nd]) ts₃
      else .ok (Node.style "span" (Node.text start :: content)) ts
  termination_by structural f s c ts => f
end

/-- `Parser.parse` / `parseDocument`: run the document loop and wrap the
blocks in a Document node. -/
def parseDocument (f : Nat) (ts : Toks) : PRes Node :=
  match parseDocLoop f ts [] with
  | .ok bs ts' => .ok (Node.document bs) ts'
  | .err e ts' => .err e ts'
  | .out => .out

/-- The full front end: tokenize, then parse with the given fuel. -/
def scribedown (f : Nat) (input : String) : PRes Node :=
  parseDocument f (tokenize input)

/-- The rendered HTML of a successful run (`none` when the run threw or
the fuel ran out). -/
def renderOk : PRes Node → Option String
  | .ok n _ => some n.html
  | _ => none

/-- Tokenize, parse and render. -/
def scribeHtml (f : Nat) (input : String) : Option String :=
  renderOk (scribedown f input)

/-! ### Statement helpers -/

/-- Number of tokens of a given kind in a stream. -/
def cntTok (k : Tok) (ts : List Token) : Nat :=
  ts.countP (fun t => t.tok == k)

/-- Prefix-dominance check for one open/close sentinel pair: scanning
left to right with `n` initially-open contexts, every close token must
find an open context to match; `true` means every close sentinel follows
its matching open. -/
def balOk (o c : Tok) : Nat → List Token → Bool
  | _, [] => true
  | n, t :: ts =>
    if t.tok == c then
      if n = 0 then false else balOk o c (n - 1) ts
    else if t.tok == o then balOk o c (n + 1) ts
    else balOk o c n ts

/-- The number of contexts of one open/close pair still open after a
token stream, starting from `n`. -/
def creditAfter (o c : Tok) : Nat → List Token → Nat
  | n, [] => n
  | n, t :: ts =>
    if t.tok == c then creditAfter o c (n - 1) ts
    else if t.tok == o then creditAfter o c (n + 1) ts
    else creditAfter o c n ts

/-- Whether a node is a BlockQuote node. -/
def isBQNode : Node → Bool
  | .blockQuote _ => true
  | _ => false

/-- The block list of a successfully parsed document (empty on
failure). -/
def docBlocks : PRes Node → List Node
  | .ok (.document bs) _ => bs
  | _ => []

/-! ## Parser error-containment lemmas -/

/-- The resynchronization primitive `expectAll` with a regex never
throws a ParseError: its only failure is the TypeError from reading
`.val` of `undefined` at end of stream. -/
theorem expectAllRe_no_parseError (r : Char → Bool) :
    ∀ (ts ts' : Toks) (m : String),
      expectAllRe r ts ≠ Except.error (JsError.parseError m, ts') := by
  intro ts
  induction ts with
  | nil =>
    intro ts' m h
    rw [expectAllRe] at h
    split at h <;> simp_all
  | cons t ts ih =>
    intro ts' m h
    rw [expectAllRe] at h
    split at h
    · split at h
      · simp_all
      · rename_i e heq
        obtain ⟨rfl⟩ : e = (JsError.parseError m, ts') := by
          injection h
        exact ih _ _ heq
    · simp_all

/-- The document loop catches every ParseError thrown by block parsing:
whatever the fuel, the token stream and the accumulated blocks, its
result is never an escaped ParseError. -/
theorem parseDocLoop_no_parseError :
    ∀ (f : Nat) (ts : Toks) (acc : List Node) (m : String) (ts' : Toks),
      parseDocLoop f ts acc ≠ PRes.err (JsError.parseError m) ts' := by
  intro f
  induction f with
  | zero =>
    intro ts acc m ts' h
    simp only [parseDocLoop] at h
    exact PRes.noConfusion h
  | succ f ih =>
    intro ts acc m ts' h
    cases ts with
    | nil =>
      simp only [parseDocLoop] at h
      exact PRes.noConfusion h
    | cons t rest =>
      simp only [parseDocLoop] at h
      split at h
      · exact ih _ _ _ _ h
      · split at h
        · exact ih _ _ _ _ h
        · rename_i e2 ts3 heq
          obtain ⟨h1, h2⟩ := PRes.err.inj h
          subst h1
          exact expectAllRe_no_parseError _ _ _ _ heq
      · exact absurd h (by simp)
      · exact PRes.noConfusion h

/-! ## Claim C1 -/

/-- C1 (counterexample): on the input "|" the recovery path itself fails
at end of stream — the attempted table parse throws a ParseError with
the stream exhausted, and the document loop's resynchronization
(`expectAll(/[^\n]/)`) reads `.val` of `undefined`, so a TypeError
escapes the top-level parse entry point. -/
theorem c1_counterexample :
    scribedown 99 "|" = PRes.err (JsError.typeError undefValMsg) [] := rfl

/-- C1 (amended): every structural ParseError raised during block
parsing is caught at the document loop, which resynchronizes and
appends an Error node; no ParseError ever escapes the top-level parse
entry point, for any input and any fuel.  (What can escape — forced by
the counterexample — is a TypeError raised when the resynchronization
itself runs at end of stream.) -/
theorem c1_no_parse_error_escapes (f : Nat) (input : String) (m : String) (ts : Toks) :
    scribedown f input ≠ PRes.err (JsError.parseError m) ts := by
  intro h
  rw [scribedown, parseDocument] at h
  split at h
  · exact PRes.noConfusion h
  · rename_i e ts2 heq
    obtain ⟨h1, h2⟩ := PRes.err.inj h
    subst h1; subst h2
    exact parseDocLoop_no_parseError _ _ _ _ _ heq
  · exact PRes.noConfusion h

/-! ## Claim C3 -/

/-- C3: when the close-scanning loop of `parseStyle` exhausts the token
stream before a valid close, it returns — never raises — an un-styled
generic inline container ("span") whose first child is a Text node
holding the literal opener text, followed by everything scanned; and
concretely, the unterminated emphasis "a *b" renders with the literal
'*' preserved in the output text (successful parse, no error). -/
theorem c3_unterminated_style_fails_open :
    (∀ (f : Nat) (start : String) (content : List Node),
        styleLoop (f + 1) start content [] =
          PRes.ok (Node.style "span" (Node.text start :: content)) []) ∧
    scribeHtml 99 "a *b" = some "<p>a <br><span>*b\n</span></p>" ∧
    '*' ∈ "<p>a <br><span>*b\n</span></p>".toList :=
  ⟨fun _ _ _ => rfl, rfl, by decide⟩

/-! ## Claim C4 -/

/-- C4 (counterexample): for the input "***x**" the rendered HTML is
"<p><strong>*x</strong></p>\n<p></p>" — the extra leading '*' ends up
inside the strong element, so no substring "*<strong>" occurs: the
literal '*' does not prefix the <strong> span as the claim states. -/
theorem c4_counterexample :
    scribeHtml 99 "***x**" = some "<p><strong>*x</strong></p>\n<p></p>" ∧
    ¬ ("*<strong>".toList <:+: "<p><strong>*x</strong></p>\n<p></p>".toList) :=
  ⟨rfl, by decide⟩

/-- C4 (amended): marker matching is greedy two-character first:
"**bold**" renders as <strong>bold</strong> and "*em*" as <em>em</em>
(each inside the enclosing paragraph, followed by an empty trailing
paragraph); for "***x**" the extra leading '*' becomes literal text at
the start of the <strong> span's content — the HTML contains
"<strong>*x", not "*<strong>". -/
theorem c4_marker_precedence :
    scribeHtml 99 "**bold**" = some "<p><strong>bold</strong></p>\n<p></p>" ∧
    scribeHtml 99 "*em*" = some "<p><em>em</em></p>\n<p></p>" ∧
    scribeHtml 99 "***x**" = some "<p><strong>*x</strong></p>\n<p></p>" ∧
    "<strong>*x".toList <:+: "<p><strong>*x</strong></p>\n<p></p>".toList :=
  ⟨rfl, rfl, rfl, by decide⟩

/-! ## Claim C5 -/

/-- C5 (counterexample): for the single plain-text line "a" the lexer
appends a newline before scanning, and the paragraph's Text node keeps
it: the tree is Document [Paragraph [Text "a\n"]], whose Text content
differs from the input line "a", and the rendered HTML is "<p>a\n</p>",
not "<p>" ++ "a" ++ "</p>". -/
theorem c5_counterexample :
    scribedown 99 "a" = PRes.ok (Node.document [Node.paragraph [Node.text "a\n"]]) [] ∧
    ("a\n" : String) ≠ "a" ∧
    scribeHtml 99 "a" = some "<p>a\n</p>" ∧
    ("<p>a\n</p>" : String) ≠ "<p>" ++ "a" ++ "</p>" :=
  ⟨rfl, by decide, rfl, by decide⟩

/-! ## Lexer emission characterizations -/

/-- The closing block-quote loop emits, starting at depth `i`, one
END_BLOCK_QUOTE per iteration with decreasing depth payloads. -/
theorem endBQGo_range : ∀ (k i : Nat),
    endBQGo k i = (List.range k).map (fun j => ⟨Tok.END_BLOCK_QUOTE, "", TokData.nat (i - j)⟩) := by
  intro k
  induction k with
  | zero => intro i; rfl
  | succ k ih =>
    intro i
    rw [endBQGo, ih, List.range_succ_eq_map]
    simp only [List.map_cons, List.map_map, Nat.sub_zero]
    congr 1
    apply List.map_congr_left
    intro j hj
    simp only [Function.comp_apply]
    congr 2
    omega

/-- The opening block-quote loop emits, starting above depth `i`, one
BLOCK_QUOTE per iteration with increasing depth payloads, the marker
text only on the last (innermost) one. -/
theorem openBQGo_range : ∀ (k i : Nat) (v : String),
    openBQGo k i v = (List.range k).map
      (fun j => ⟨Tok.BLOCK_QUOTE, if j + 1 = k then v else "", TokData.nat (i + j + 1)⟩) := by
  intro k
  induction k with
  | zero => intro i v; rfl
  | succ k ih =>
    intro i v
    rw [openBQGo, ih, List.range_succ_eq_map]
    simp only [List.map_cons, List.map_map, Nat.add_zero]
    refine congrArg₂ List.cons ?_ ?_
    · have h0 : (0 + 1 = k + 1) = (k = 0) := propext (by omega)
      simp only [h0]
    · apply List.map_congr_left
      intro j hj
      simp only [Function.comp_apply]
      have h1 : (j + 1 + 1 = k + 1) = (j + 1 = k) := propext (by omega)
      have h2 : i + (j + 1) + 1 = i + 1 + j + 1 := by omega
      simp only [Nat.succ_eq_add_one, h1, h2]

/-- The indentation scan leaves a list that does not start with a space
untouched. -/
theorem takeSpaces_of_head_ne (cap : Nat) (cs : List Char) (h : cs.head? ≠ some ' ') :
    takeSpaces cap cs = (0, cs) := by
  cases cs with
  | nil => cases cap <;> rfl
  | cons c cs' =>
    have hc : c ≠ ' ' := by simpa using h
    cases cap with
    | zero => rfl
    | succ cap => rw [takeSpaces, if_neg hc]

/-- The indentation scan consumes all `m` leading spaces when `m` is
within the cap. -/
theorem takeSpaces_replicate_le (m : Nat) : ∀ (cap : Nat) (tl : List Char), m ≤ cap →
    tl.head? ≠ some ' ' → takeSpaces cap (List.replicate m ' ' ++ tl) = (m, tl) := by
  induction m with
  | zero => intro cap tl _ h; simpa using takeSpaces_of_head_ne cap tl h
  | succ m ih =>
    intro cap tl hle h
    cases cap with
    | zero => omega
    | succ cap =>
      rw [List.replicate_succ, List.cons_append, takeSpaces, if_pos rfl, ih cap tl (by omega) h]

/-- The indentation scan stops at the cap, leaving the surplus
spaces. -/
theorem takeSpaces_replicate_ge (cap : Nat) : ∀ (m : Nat) (tl : List Char), cap ≤ m →
    takeSpaces cap (List.replicate m ' ' ++ tl) = (cap, List.replicate (m - cap) ' ' ++ tl) := by
  induction cap with
  | zero => intro m tl _; simp [takeSpaces]
  | succ cap ih =>
    intro m tl hle
    cases m with
    | zero => omega
    | succ m =>
      rw [List.replicate_succ, List.cons_append, takeSpaces, if_pos rfl, ih m tl (by omega)]
      simp [Nat.succ_sub_succ]

/-- The list half of `resetContext` emits, per open frame, innermost
first, an END_LIST_ITEM followed by an END_LIST. -/
theorem closeFrames_flatMap : ∀ (l : List Frame),
    closeFrames l = l.flatMap (fun fr =>
      [⟨Tok.END_LIST_ITEM, "", TokData.nat fr.anchor⟩,
       ⟨Tok.END_LIST, "", TokData.nat fr.anchor⟩]) := by
  intro l
  induction l with
  | nil => rfl
  | cons fr l ih => rw [closeFrames, ih]; rfl

/-! ## Claim C6 -/

/-- C6: a blank (whitespace-only) line, in every tokenizer state, emits
END_BLOCK_QUOTE once per open block-quote level (innermost first), then
per open list frame (innermost first) END_LIST_ITEM followed by
END_LIST, resets the whole lexer state (indentation baseline zero), and
contributes exactly one further token, a BLANK_LINE; consequently
"> a\n\n> b\n" parses to two independent BlockQuote nodes, not one. -/
theorem c6_blank_line_flush :
    (∀ (s : LexState) (line : List Char), jsTrimL line = [] →
        tokenizeLine s line =
          ((List.range s.blockQuote).map
              (fun j => ⟨Tok.END_BLOCK_QUOTE, "", TokData.nat (s.blockQuote - j)⟩) ++
            s.lists.flatMap (fun fr =>
              [⟨Tok.END_LIST_ITEM, "", TokData.nat fr.anchor⟩,
               ⟨Tok.END_LIST, "", TokData.nat fr.anchor⟩]) ++
            [⟨Tok.BLANK_LINE, "", TokData.none⟩],
           ⟨0, [], 0⟩)) ∧
    scribedown 99 "> a\n\n> b\n" =
      PRes.ok (Node.document
        [Node.blockQuote [Node.paragraph [Node.text "a\n"]],
         Node.blockQuote [Node.paragraph [Node.text "b\n"]],
         Node.paragraph []]) [] ∧
    (docBlocks (scribedown 99 "> a\n\n> b\n")).countP (fun b => isBQNode b) = 2 := by
  refine ⟨?_, rfl, rfl⟩
  intro s line h
  rw [tokenizeLine]
  simp [h, resetContext, endBQs, endBQGo_range, closeFrames_flatMap]

/-- C6 witness: a concrete state with two open quote levels and one open
list frame, flushed by the whitespace-only line " ". -/
theorem c6_witness :
    jsTrimL [' '] = [] ∧
    tokenizeLine ⟨2, [⟨1, 3⟩], 5⟩ [' '] =
      ([⟨Tok.END_BLOCK_QUOTE, "", TokData.nat 2⟩, ⟨Tok.END_BLOCK_QUOTE, "", TokData.nat 1⟩,
        ⟨Tok.END_LIST_ITEM, "", TokData.nat 1⟩, ⟨Tok.END_LIST, "", TokData.nat 1⟩,
        ⟨Tok.BLANK_LINE, "", TokData.none⟩], ⟨0, [], 0⟩) :=
  ⟨by decide, c6_blank_line_flush.1 ⟨2, [⟨1, 3⟩], 5⟩ [' '] (by decide)⟩

/-! ## Claim C7 -/

/-- C7: list sibling-versus-nesting is decided by comparing the new
item's indentation with the open list's indent threshold: below the
threshold the lexer emits END_LIST_ITEM without closing the list
(stack unchanged), otherwise it emits and pushes a new LIST frame;
hence "- a\n  - b\n" parses to a List with one ListItem containing a
nested single-item List, while "- a\n- b\n" parses to one List with two
sibling ListItems. -/
theorem c7_list_nesting :
    (∀ (fr : Frame) (l : List Frame) (ind li : Nat), ind < fr.indent →
        listDecision (fr :: l) ind li =
          ([⟨Tok.END_LIST_ITEM, "", TokData.sib ind fr⟩], fr :: l)) ∧
    (∀ (fr : Frame) (l : List Frame) (ind li : Nat), ¬ ind < fr.indent →
        listDecision (fr :: l) ind li =
          ([⟨Tok.LIST, "", TokData.frame ⟨ind, li⟩⟩], ⟨ind, li⟩ :: fr :: l)) ∧
    scribedown 99 "- a\n  - b\n" =
      PRes.ok (Node.document
        [Node.list [Node.listItem
            [Node.paragraph [Node.text "a\n"],
             Node.list [Node.listItem [Node.paragraph [Node.text "b\n"]]]]],
         Node.paragraph []]) [] ∧
    scribedown 99 "- a\n- b\n" =
      PRes.ok (Node.document
        [Node.list [Node.listItem [Node.paragraph [Node.text "a\n"]],
                    Node.listItem [Node.paragraph [Node.text "b\n"]]],
         Node.paragraph []]) [] := by
  refine ⟨?_, ?_, rfl, rfl⟩
  · intro fr l ind li h
    simp [listDecision, h]
  · intro fr l ind li h
    simp [listDecision, h]

/-- C7 witness: the sibling branch at indentation 0 against threshold 2,
and the nesting branch at indentation 2 against threshold 2. -/
theorem c7_witness :
    ((0 : Nat) < 2 ∧
      listDecision [⟨0, 2⟩] 0 2 = ([⟨Tok.END_LIST_ITEM, "", TokData.sib 0 ⟨0, 2⟩⟩], [⟨0, 2⟩])) ∧
    (¬ (2 : Nat) < 2 ∧
      listDecision [⟨0, 2⟩] 2 4 =
        ([⟨Tok.LIST, "", TokData.frame ⟨2, 4⟩⟩], [⟨2, 4⟩, ⟨0, 2⟩])) :=
  ⟨⟨by decide, c7_list_nesting.1 ⟨0, 2⟩ [] 0 2 (by decide)⟩,
   ⟨by decide, c7_list_nesting.2.1 ⟨0, 2⟩ [] 2 4 (by decide)⟩⟩

/-! ## Claim C8 -/

/-- C8: when a line opens a list item (marker then at least one space),
the tokenizer consumes at most 5 following spaces as postIndentation
(`min k 5` of the `k` available), computes the item content indentation
as ((postIndentation − 1) mod 4) + 1 and the indent threshold as
indentation + markerLength + itemContentIndent (markerLength = 1); when
postIndentation = 5 the remainder of the line is additionally emitted
as a CODE_BLOCK token and the rest of the line is consumed; and the
indentation baseline is updated to the new indent threshold. -/
theorem c8_list_item_lexing (s : LexState) (m k : Nat) (marker : Char) (rest : List Char)
    (hm : m < s.indentation + 4)
    (hmk : marker = '-' ∨ marker = '+' ∨ marker = '*')
    (hk : 1 ≤ k) (hr : rest.head? ≠ some ' ') :
    tokenizeBlock s (List.replicate m ' ' ++ marker :: (List.replicate k ' ' ++ rest)) =
      ((popLists s.lists m).1 ++
        (listDecision (popLists s.lists m).2 m (m + 1 + ((min k 5 - 1) % 4 + 1))).1 ++
        (⟨Tok.LIST_ITEM, String.mk (marker :: List.replicate ((min k 5 - 1) % 4 + 1) ' '),
          TokData.frame ⟨m, m + 1 + ((min k 5 - 1) % 4 + 1)⟩⟩ ::
         (if min k 5 = 5 then
            [⟨Tok.CODE_BLOCK, String.mk (List.replicate (k - 5) ' ' ++ rest),
              TokData.nat (m + 1 + ((min k 5 - 1) % 4 + 1) + 4)⟩]
          else [])),
       ⟨s.blockQuote, (listDecision (popLists s.lists m).2 m (m + 1 + ((min k 5 - 1) % 4 + 1))).2,
        m + 1 + ((min k 5 - 1) % 4 + 1)⟩,
       if min k 5 = 5 then [] else rest) := by
  have hmark_ne : marker ≠ ' ' := by rcases hmk with rfl | rfl | rfl <;> decide
  have hhead : (marker :: (List.replicate k ' ' ++ rest)).head? ≠ some ' ' := by
    simp [hmark_ne]
  obtain ⟨k', rfl⟩ : ∃ k', k = k' + 1 := ⟨k - 1, by omega⟩
  rcases le_or_lt (k' + 1) 5 with h5 | h5
  · have hmin : min (k' + 1) 5 = k' + 1 := Nat.min_eq_left h5
    have hsub : k' + 1 - 5 = 0 := by omega
    rw [tokenizeBlock]
    rw [takeSpaces_replicate_le m _ _ (by omega) hhead]
    simp only [if_neg (by omega : ¬ m = s.indentation + 4), if_pos hmk]
    rw [List.replicate_succ, List.cons_append]
    simp only [if_pos rfl]
    rw [← List.cons_append, ← List.replicate_succ,
      takeSpaces_replicate_le (k' + 1) 5 rest h5 hr]
    simp only [hmin, hsub, List.replicate_zero, List.nil_append, if_true]
    split <;> rfl
  · have hmin : min (k' + 1) 5 = 5 := Nat.min_eq_right (by omega)
    rw [tokenizeBlock]
    rw [takeSpaces_replicate_le m _ _ (by omega) hhead]
    simp only [if_neg (by omega : ¬ m = s.indentation + 4), if_pos hmk]
    rw [List.replicate_succ, List.cons_append]
    simp only [if_pos rfl]
    rw [← List.cons_append, ← List.replicate_succ,
      takeSpaces_replicate_ge 5 (k' + 1) rest (by omega)]
    simp only [hmin, if_true]

/-- C8 witness: the line "- a" (marker, one space) at indentation 0 in
the initial state opens a list with indent threshold 2 and leaves the
text to the TEXT loop. -/
theorem c8_witness :
    ((0 : Nat) < 0 + 4 ∧ (('-' : Char) = '-' ∨ ('-' : Char) = '+' ∨ ('-' : Char) = '*') ∧
      (1 : Nat) ≤ 1 ∧ (['a', '\n'] : List Char).head? ≠ some ' ') ∧
    tokenizeBlock ⟨0, [], 0⟩ ['-', ' ', 'a', '\n'] =
      ([⟨Tok.LIST, "", TokData.frame ⟨0, 2⟩⟩, ⟨Tok.LIST_ITEM, "- ", TokData.frame ⟨0, 2⟩⟩],
       ⟨0, [⟨0, 2⟩], 2⟩, ['a', '\n']) :=
  ⟨⟨by decide, Or.inl rfl, by decide, by decide⟩,
   c8_list_item_lexing ⟨0, [], 0⟩ 0 1 '-' ['a', '\n'] (by decide) (Or.inl rfl) (by decide)
     (by decide)⟩

/-! ## Claim C9 -/

/-- C9: for a line whose first non-indentation character is '>', the
marker loop yields a count, the consumed marker text and the remainder;
when the count is below the open depth and the stripped marker text is
not the line's whole trimmed content (not a bare marker repetition),
the count is overridden back up to the current depth (lazy
continuation); the tokenizer then emits END_BLOCK_QUOTE for each level
strictly above the resolved count (innermost first) and BLOCK_QUOTE for
each new level up to the count (outermost first), only the innermost
opened BLOCK_QUOTE carrying the consumed marker text, the others empty;
the stored depth becomes the resolved count. -/
theorem c9_blockquote_lexing :
    (∀ (s : LexState) (m : Nat) (rest : List Char) (n : Nat) (v r : List Char),
        m < s.indentation + 4 →
        quoteMarkers ('>' :: rest) = (n, v, r) →
        tokenizeBlock s (List.replicate m ' ' ++ '>' :: rest) =
          ((popLists s.lists m).1 ++
            endBQs s.blockQuote
              (if n < s.blockQuote ∧
                  jsTrimL v ≠ jsTrimL (List.replicate m ' ' ++ '>' :: rest) then
                s.blockQuote else n) ++
            openBQs s.blockQuote
              (if n < s.blockQuote ∧
                  jsTrimL v ≠ jsTrimL (List.replicate m ' ' ++ '>' :: rest) then
                s.blockQuote else n)
              (String.mk v),
           ⟨(if n < s.blockQuote ∧
                jsTrimL v ≠ jsTrimL (List.replicate m ' ' ++ '>' :: rest) then
              s.blockQuote else n),
            (popLists s.lists m).2, s.indentation⟩, r)) ∧
    (∀ (d c : Nat), endBQs d c =
      (List.range (d - c)).map (fun j => ⟨Tok.END_BLOCK_QUOTE, "", TokData.nat (d - j)⟩)) ∧
    (∀ (d c : Nat) (v : String), openBQs d c v =
      (List.range (c - d)).map
        (fun j => ⟨Tok.BLOCK_QUOTE, if j + 1 = c - d then v else "", TokData.nat (d + j + 1)⟩)) := by
  refine ⟨?_, fun d c => endBQGo_range (d - c) d, fun d c v => openBQGo_range (c - d) d v⟩
  intro s m rest n v r hm hq
  have hhead : (('>' : Char) :: rest).head? ≠ some ' ' := by simp
  rw [tokenizeBlock, takeSpaces_replicate_le m _ _ (by omega) hhead]
  simp only [if_neg (by omega : ¬ m = s.indentation + 4),
    if_neg (by decide : ¬(('>' : Char) = '-' ∨ ('>' : Char) = '+' ∨ ('>' : Char) = '*')),
    if_pos rfl, hq]
  rw [if_pos trivial]

/-- C9 witness: the line "> a" under two open quote levels is a lazy
continuation — the count 1 is overridden back to 2 and no sentinel is
emitted at all. -/
theorem c9_witness :
    ((0 : Nat) < 0 + 4) ∧
    quoteMarkers ['>', ' ', 'a', '\n'] = (1, ['>', ' '], ['a', '\n']) ∧
    tokenizeBlock ⟨2, [], 0⟩ ['>', ' ', 'a', '\n'] = ([], ⟨2, [], 0⟩, ['a', '\n']) :=
  ⟨by decide, rfl,
   c9_blockquote_lexing.1 ⟨2, [], 0⟩ 0 [' ', 'a', '\n'] 1 ['>', ' '] ['a', '\n']
     (by decide) rfl⟩


/-! ## Claim C10 -/

/-- A list's last element is a member. -/
theorem mem_of_getLast?' : ∀ (l : List Char) (a : Char), l.getLast? = some a → a ∈ l := by
  intro l
  induction l with
  | nil => intro a h; cases h
  | cons x l ih =>
    intro a h
    cases l with
    | nil =>
      simp only [List.getLast?_singleton, Option.some.injEq] at h
      simp [h]
    | cons y l' =>
      rw [List.getLast?_cons_cons] at h
      exact List.mem_cons_of_mem x (ih a h)

/-- A nonempty suffix has the same last element as the whole list. -/
theorem getLast?_of_suffix {l₁ l₂ : List Char} (h : l₁ <:+ l₂) (hne : l₁ ≠ []) :
    l₁.getLast? = l₂.getLast? := by
  obtain ⟨pre, rfl⟩ := h
  rw [List.getLast?_append]
  cases hl : l₁.getLast? with
  | none => exact absurd (List.getLast?_eq_none_iff.mp hl) hne
  | some x => rfl

/-- The indentation scan returns a suffix of its input. -/
theorem takeSpaces_suffix : ∀ (cap : Nat) (cs : List Char), (takeSpaces cap cs).2 <:+ cs := by
  intro cap
  induction cap with
  | zero => intro cs; exact List.suffix_refl cs
  | succ cap ih =>
    intro cs
    cases cs with
    | nil => exact List.suffix_refl []
    | cons c cs' =>
      by_cases hc : c = ' '
      · subst hc
        rw [takeSpaces, if_pos rfl]
        exact (ih cs').trans (List.suffix_cons _ _)
      · rw [takeSpaces, if_neg hc]

/-- The indentation scan consumes only spaces, so it never consumes a
newline. -/
theorem mem_takeSpaces_newline : ∀ (cap : Nat) (cs : List Char),
    '\n' ∈ cs → '\n' ∈ (takeSpaces cap cs).2 := by
  intro cap
  induction cap with
  | zero => intro cs h; exact h
  | succ cap ih =>
    intro cs h
    cases cs with
    | nil => exact h
    | cons c cs' =>
      by_cases hc : c = ' '
      · subst hc
        rw [takeSpaces, if_pos rfl]
        rcases List.mem_cons.mp h with h1 | h2
        · exact absurd h1 (by decide)
        · exact ih cs' h2
      · rw [takeSpaces, if_neg hc]
        exact h

/-- The block-quote marker scan returns a suffix of its input. -/
theorem quoteMarkers_suffix : ∀ (cs : List Char), (quoteMarkers cs).2.2 <:+ cs
  | [] => by rw [quoteMarkers]
  | [c] => by
    by_cases h : c = '>'
    · rw [quoteMarkers, if_pos h]; exact List.nil_suffix
    · rw [quoteMarkers, if_neg h]
  | c :: c₂ :: cs' => by
    by_cases h : c = '>'
    · by_cases h2 : c₂ = ' ' ∨ c₂ = '\t'
      · have hrec := quoteMarkers_suffix cs'
        rw [quoteMarkers, if_pos h, if_pos h2]
        rcases hq : quoteMarkers cs' with ⟨n, v, r⟩
        rw [hq] at hrec
        exact hrec.trans ((List.suffix_cons _ _).trans (List.suffix_cons _ _))
      · have hrec := quoteMarkers_suffix (c₂ :: cs')
        rw [quoteMarkers, if_pos h, if_neg h2]
        rcases hq : quoteMarkers (c₂ :: cs') with ⟨n, v, r⟩
        rw [hq] at hrec
        exact hrec.trans (List.suffix_cons _ _)
    · rw [quoteMarkers, if_neg h]

/-- The block-quote marker scan consumes only markers and horizontal
whitespace, so it never consumes a newline. -/
theorem mem_quoteMarkers_newline : ∀ (cs : List Char),
    '\n' ∈ cs → '\n' ∈ (quoteMarkers cs).2.2
  | [] => by intro h; exact h
  | [c] => by
    intro h
    rcases List.mem_singleton.mp h with rfl
    rw [quoteMarkers, if_neg (by decide)]
    exact List.mem_singleton.mpr rfl
  | c :: c₂ :: cs' => by
    intro h
    by_cases hc : c = '>'
    · subst hc
      have hn : '\n' ∈ c₂ :: cs' := by
        rcases List.mem_cons.mp h with h1 | h2
        · exact absurd h1 (by decide)
        · exact h2
      by_cases h2 : c₂ = ' ' ∨ c₂ = '\t'
      · have hn' : '\n' ∈ cs' := by
          rcases List.mem_cons.mp hn with h1 | h3
          · rcases h2 with rfl | rfl <;> exact absurd h1 (by decide)
          · exact h3
        have hrec := mem_quoteMarkers_newline cs' hn'
        rw [quoteMarkers, if_pos rfl, if_pos h2]
        rcases hq : quoteMarkers cs' with ⟨n, v, r⟩
        rw [hq] at hrec
        exact hrec
      · have hrec := mem_quoteMarkers_newline (c₂ :: cs') hn
        rw [quoteMarkers, if_pos rfl, if_neg h2]
        rcases hq : quoteMarkers (c₂ :: cs') with ⟨n, v, r⟩
        rw [hq] at hrec
        exact hrec
    · rw [quoteMarkers, if_neg hc]
      exact h


/-- After the block-structure scan of a line containing a newline,
either the unconsumed remainder is a nonempty suffix ending like the
line does, or the whole line was consumed and the emitted tokens end in
a CODE_BLOCK whose text ends like the line does. -/
theorem tokenizeBlock_last (s : LexState) (line : List Char) (h : '\n' ∈ line) :
    ((tokenizeBlock s line).2.2 ≠ [] ∧
     (tokenizeBlock s line).2.2.getLast? = line.getLast?) ∨
    ((tokenizeBlock s line).2.2 = [] ∧
     ∃ t, (tokenizeBlock s line).1.getLast? = some t ∧ t.tok = Tok.CODE_BLOCK ∧
       t.val.toList.getLast? = line.getLast?) := by
  have hsfx₁ := takeSpaces_suffix (s.indentation + 4) line
  have hmem₁ := mem_takeSpaces_newline (s.indentation + 4) line h
  rw [tokenizeBlock]
  rcases hts : takeSpaces (s.indentation + 4) line with ⟨ind, cs₁⟩
  rw [hts] at hsfx₁ hmem₁
  simp only at hsfx₁ hmem₁ ⊢
  rcases hpl : popLists s.lists ind with ⟨closeToks, lists₁⟩
  by_cases hcode : ind = s.indentation + 4
  · rw [if_pos hcode]
    right
    refine ⟨rfl, ⟨Tok.CODE_BLOCK, String.mk cs₁, TokData.nat ind⟩, ?_, rfl, ?_⟩
    · rw [List.getLast?_concat]
    · exact getLast?_of_suffix hsfx₁ (List.ne_nil_of_mem hmem₁)
  · rw [if_neg hcode]
    cases cs₁ with
    | nil => exact absurd hmem₁ (by simp)
    | cons c cs₂ =>
      by_cases hmk : c = '-' ∨ c = '+' ∨ c = '*'
      · simp only [if_pos hmk]
        have hcne : c ≠ '\n' := by rcases hmk with rfl | rfl | rfl <;> decide
        have hmem₂ : '\n' ∈ cs₂ := by
          rcases List.mem_cons.mp hmem₁ with h1 | h2
          · exact absurd h1.symm hcne
          · exact h2
        cases cs₂ with
        | nil => exact absurd hmem₂ (by simp)
        | cons c₂ cs₃' =>
          by_cases hsp : c₂ = ' '
          · simp only [if_pos hsp]
            have hsfx₂ := takeSpaces_suffix 5 (c₂ :: cs₃')
            have hmem₃ := mem_takeSpaces_newline 5 (c₂ :: cs₃') hmem₂
            rcases hps : takeSpaces 5 (c₂ :: cs₃') with ⟨post, cs₃⟩
            rw [hps] at hsfx₂ hmem₃
            simp only at hsfx₂ hmem₃ ⊢
            have hsfx₃ : cs₃ <:+ line :=
              (hsfx₂.trans ((List.suffix_cons c (c₂ :: cs₃')).trans hsfx₁))
            rcases hld : listDecision lists₁ ind (ind + 1 + ((post - 1) % 4 + 1))
              with ⟨structToks, lists₂⟩
            by_cases h5 : post = 5
            · simp only [if_pos h5]
              right
              refine ⟨trivial,
                ⟨Tok.CODE_BLOCK, String.mk cs₃,
                  TokData.nat (ind + 1 + ((post - 1) % 4 + 1) + 4)⟩, ?_, rfl, ?_⟩
              · rw [List.getLast?_append, List.getLast?_append]
                rfl
              · exact getLast?_of_suffix hsfx₃ (List.ne_nil_of_mem hmem₃)
            · simp only [if_neg h5]
              left
              exact ⟨List.ne_nil_of_mem hmem₃,
                getLast?_of_suffix hsfx₃ (List.ne_nil_of_mem hmem₃)⟩
          · simp only [if_neg hsp]
            left
            have hsfx₂ : (c₂ :: cs₃') <:+ line :=
              (List.suffix_cons c (c₂ :: cs₃')).trans hsfx₁
            exact ⟨by simp, getLast?_of_suffix hsfx₂ (by simp)⟩
      · simp only [if_neg hmk]
        by_cases hgt : c = '>'
        · simp only [if_pos hgt]
          subst hgt
          have hsfx₂ := quoteMarkers_suffix ('>' :: cs₂)
          have hmem₂ := mem_quoteMarkers_newline ('>' :: cs₂) hmem₁
          rcases hq : quoteMarkers ('>' :: cs₂) with ⟨n, v, r⟩
          rw [hq] at hsfx₂ hmem₂
          simp only at hsfx₂ hmem₂ ⊢
          left
          exact ⟨List.ne_nil_of_mem hmem₂,
            getLast?_of_suffix (hsfx₂.trans hsfx₁) (List.ne_nil_of_mem hmem₂)⟩
        · simp only [if_neg hgt]
          left
          exact ⟨by simp, getLast?_of_suffix hsfx₁ (by simp)⟩


/-- A non-blank newline-terminated line's token contribution is
nonempty and ends with a TEXT newline token or a CODE_BLOCK token whose
value ends in a newline. -/
theorem tokenizeLine_last (s : LexState) (line : List Char)
    (hnl : line.getLast? = some '\n') (hblank : jsTrimL line ≠ []) :
    (tokenizeLine s line).1 ≠ [] ∧
    ∃ t, ((tokenizeLine s line).1).getLast? = some t ∧
      ((t.tok = Tok.TEXT ∧ t.val = "\n") ∨
       (t.tok = Tok.CODE_BLOCK ∧ t.val.toList.getLast? = some '\n')) := by
  have H := tokenizeBlock_last s line (mem_of_getLast?' line '\n' hnl)
  rw [tokenizeLine, if_neg hblank]
  rcases htb : tokenizeBlock s line with ⟨bts, rest2⟩
  rcases rest2 with ⟨s', rest⟩
  rw [htb] at H
  simp only at H ⊢
  rcases H with ⟨hne, hlast⟩ | ⟨hre, t, hlast, htok, hval⟩
  · constructor
    · simp [hne]
    · refine ⟨textTok '\n', ?_, Or.inl ⟨rfl, rfl⟩⟩
      rw [List.getLast?_append, List.getLast?_map, hlast, hnl]
      rfl
  · subst hre
    simp only [List.map_nil, List.append_nil]
    refine ⟨?_, t, hlast, Or.inr ⟨htok, ?_⟩⟩
    · intro hbts
      rw [hbts] at hlast
      cases hlast
    · rw [hval, hnl]

/-- C10: the tokenizer newline-terminates every line before scanning
(the input is split at newlines and each piece gets a final newline
appended), so every non-blank line - including a final line with no
trailing newline in the input - ends its token contribution with either
a TEXT token whose value is a newline or a CODE_BLOCK token whose value
ends in a newline. -/
theorem c10_newline_termination :
    (∀ (text : String) (l : List Char), l ∈ lexLines text → l.getLast? = some '\n') ∧
    (∀ (s : LexState) (line : List Char),
        line.getLast? = some '\n' → jsTrimL line ≠ [] →
        (tokenizeLine s line).1 ≠ [] ∧
        ∃ t, ((tokenizeLine s line).1).getLast? = some t ∧
          ((t.tok = Tok.TEXT ∧ t.val = "\n") ∨
           (t.tok = Tok.CODE_BLOCK ∧ t.val.toList.getLast? = some '\n'))) := by
  constructor
  · intro text l hl
    rw [lexLines] at hl
    obtain ⟨x, _, rfl⟩ := List.mem_map.mp hl
    exact List.getLast?_concat x
  · exact tokenizeLine_last

/-- C10 witness: the single line of input "a". -/
theorem c10_witness :
    ((['a', '\n'] : List Char) ∈ lexLines "a" ∧
      (['a', '\n'] : List Char).getLast? = some '\n') ∧
    (jsTrimL ['a', '\n'] ≠ [] ∧
      ((tokenizeLine ⟨0, [], 0⟩ ['a', '\n']).1 ≠ [] ∧
        ∃ t, ((tokenizeLine ⟨0, [], 0⟩ ['a', '\n']).1).getLast? = some t ∧
          ((t.tok = Tok.TEXT ∧ t.val = "\n") ∨
           (t.tok = Tok.CODE_BLOCK ∧ t.val.toList.getLast? = some '\n')))) :=
  ⟨⟨by decide, c10_newline_termination.1 "a" ['a', '\n'] (by decide)⟩,
   ⟨by decide, c10_newline_termination.2 ⟨0, [], 0⟩ ['a', '\n'] (by decide) (by decide)⟩⟩


/-! ## Claim C5 (general) -/

/-- Splitting a newline-free list yields the single piece itself. -/
theorem splitNL_no_newline : ∀ (cs : List Char), '\n' ∉ cs → splitNL cs = [cs] := by
  intro cs
  induction cs with
  | nil => intro _; rfl
  | cons c cs ih =>
    intro h
    have hc : ¬ c = '\n' := fun hh => h (hh ▸ List.mem_cons_self c cs)
    rw [splitNL, if_neg hc, ih (fun hm => h (List.mem_cons_of_mem c hm))]

/-- A list trimming to empty is all whitespace. -/
theorem jsTrimL_eq_nil_all {l : List Char} (h : jsTrimL l = []) :
    ∀ x ∈ l, jsWhitespace x = true := by
  intro x hx
  rw [jsTrimL, List.reverse_eq_nil_iff] at h
  have h2 := List.dropWhile_eq_nil_iff.mp h
  have heq := List.takeWhile_append_dropWhile jsWhitespace l
  have hx2 : x ∈ List.takeWhile jsWhitespace l ++ List.dropWhile jsWhitespace l := by
    rw [heq]; exact hx
  rcases List.mem_append.mp hx2 with h3 | h4
  · exact List.mem_takeWhile_imp h3
  · exact h2 x (List.mem_reverse.mpr h4)

/-- Distinct characters give distinct one-character strings. -/
theorem stringMk_ne_of_ne {c d : Char} (h : c ≠ d) : String.mk [c] ≠ String.mk [d] := by
  intro hh
  apply h
  have h2 := congrArg String.toList hh
  have h3 : [c] = [d] := h2
  exact ((List.cons.injEq c [] d []).mp h3).1

/-- Plain-text collection consumes an entire run of non-style,
non-layout TEXT tokens into one string. -/
theorem parseTextAcc_map : ∀ (l : List Char), (∀ c ∈ l, isStyleChar c = false ∧ c ≠ '|') →
    parseTextAcc (l.map textTok) = (String.mk l, []) := by
  intro l
  induction l with
  | nil => intro _; rfl
  | cons c l ih =>
    intro h
    obtain ⟨hs, hl⟩ := h c (List.mem_cons_self c l)
    rw [List.map_cons, parseTextAcc]
    have hcond : (textTok c).tok = Tok.TEXT ∧ ¬reTestStr isStyleChar (textTok c).val = true ∧
        ¬reTestStr isLayoutChar (textTok c).val = true := by
      refine ⟨rfl, ?_, ?_⟩
      · show ¬([c].any isStyleChar = true)
        simp [hs]
      · show ¬([c].any isLayoutChar = true)
        simp [isLayoutChar, hl]
    rw [if_pos hcond, ih (fun c hc => h c (List.mem_cons_of_mem _ hc))]
    rfl

/-- Inline dispatch on a plain-text run produces one Text node holding
the whole run. -/
theorem parseInline_plain (f : Nat) (c₀ : Char) (cs : List Char)
    (hall : ∀ c ∈ c₀ :: cs, isStyleChar c = false ∧ c ≠ '|') :
    parseInline (f + 1) ((c₀ :: cs).map textTok) =
      PRes.ok (Node.text (String.mk (c₀ :: cs))) [] := by
  rw [List.map_cons, parseInline]
  simp only [List.head?_cons]
  rw [if_neg ?hc]
  case hc =>
    show ¬([c₀].any isStyleChar = true)
    simp [(hall c₀ (List.mem_cons_self c₀ cs)).1]
  rw [← List.map_cons, parseTextAcc_map _ hall]

/-- The paragraph loop over a plain-text run produces one paragraph with
one Text node. -/
theorem parLoop_plain (f : Nat) (c₀ : Char) (cs : List Char)
    (hall : ∀ c ∈ c₀ :: cs, isStyleChar c = false ∧ c ≠ '|') (hc0 : c₀ ≠ '\n') :
    parLoop (f + 2) ((c₀ :: cs).map textTok) [] =
      PRes.ok (Node.paragraph [Node.text (String.mk (c₀ :: cs))]) [] := by
  rw [List.map_cons, parLoop]
  rw [if_pos ?hcond]
  case hcond => exact ⟨stringMk_ne_of_ne hc0, rfl⟩
  rw [← List.map_cons, parseInline_plain f c₀ cs hall]
  rw [PRes.bind]
  rw [parLoop]
  rfl

/-- Block dispatch on a plain-text run falls through to the
paragraph. -/
theorem parseBlock_plain (f : Nat) (c₀ : Char) (cs : List Char)
    (hall : ∀ c ∈ c₀ :: cs, isStyleChar c = false ∧ c ≠ '|')
    (hc0 : c₀ ≠ '\n' ∧ c₀ ≠ '#') :
    parseBlock (f + 4) ((c₀ :: cs).map textTok) =
      PRes.ok (Node.paragraph [Node.text (String.mk (c₀ :: cs))]) [] := by
  show parseBlock ((f + 3) + 1) _ = _
  rw [List.map_cons, parseBlock]
  rw [if_neg ?hskip]
  case hskip =>
    rintro (h1 | h2)
    · exact Tok.noConfusion h1
    · exact stringMk_ne_of_ne hc0.1 h2
  simp only [List.head?_cons]
  rw [if_neg (show ¬((textTok c₀).val = "#") from stringMk_ne_of_ne hc0.2),
    if_neg (show ¬((textTok c₀).val = "|") from
      stringMk_ne_of_ne (hall c₀ (List.mem_cons_self c₀ cs)).2)]
  rw [if_neg (fun h => Tok.noConfusion h), if_neg (fun h => Tok.noConfusion h),
    if_neg (fun h => Tok.noConfusion h)]
  show parseParagraph ((f + 2) + 1) _ = _
  rw [parseParagraph, ← List.map_cons]
  exact parLoop_plain f c₀ cs hall hc0.1

/-- The document loop over a plain-text run produces exactly one
paragraph block. -/
theorem parseDocLoop_plain (f : Nat) (c₀ : Char) (cs : List Char)
    (hall : ∀ c ∈ c₀ :: cs, isStyleChar c = false ∧ c ≠ '|')
    (hc0 : c₀ ≠ '\n' ∧ c₀ ≠ '#') :
    parseDocLoop (f + 6) ((c₀ :: cs).map textTok) [] =
      PRes.ok [Node.paragraph [Node.text (String.mk (c₀ :: cs))]] [] := by
  show parseDocLoop ((f + 5) + 1) ((c₀ :: cs).map textTok) [] = _
  rw [List.map_cons, parseDocLoop]
  rw [← List.map_cons, show f + 5 = (f + 1) + 4 from rfl, parseBlock_plain (f + 1) c₀ cs hall hc0]
  show parseDocLoop ((f + 4) + 1) [] _ = _
  rw [parseDocLoop]
  rfl


/-- Appending a newline at the character-list level agrees with string
append. -/
theorem stringMk_append_newline (s : String) : String.mk (s.toList ++ ['\n']) = s ++ "\n" := by
  cases s; rfl

/-- Tokenizing a plain single line emits one TEXT token per character
plus the appended newline. -/
theorem tokenize_plain (line : String)
    (hnl : '\n' ∉ line.toList)
    (hws : ∃ c ∈ line.toList, jsWhitespace c = false)
    (hhead : ∀ c, line.toList.head? = some c →
      c ≠ ' ' ∧ ¬(c = '-' ∨ c = '+' ∨ c = '*') ∧ c ≠ '>') :
    tokenize line = (line.toList ++ ['\n']).map textTok := by
  obtain ⟨cw, hcw, hcwf⟩ := hws
  obtain ⟨c₀, cs', hl⟩ : ∃ c cs', line.toList = c :: cs' := by
    cases h : line.toList with
    | nil => rw [h] at hcw; cases hcw
    | cons a l => exact ⟨a, l, rfl⟩
  obtain ⟨h0s, h0m, h0g⟩ := hhead c₀ (by rw [hl]; rfl)
  have hblank : ¬ jsTrimL (line.toList ++ ['\n']) = [] := by
    intro hb
    have := jsTrimL_eq_nil_all hb cw (List.mem_append_left _ hcw)
    rw [this] at hcwf
    cases hcwf
  have htb : tokenizeBlock ⟨0, [], 0⟩ (line.toList ++ ['\n']) =
      ([], ⟨0, [], 0⟩, line.toList ++ ['\n']) := by
    rw [tokenizeBlock, hl, List.cons_append]
    rw [takeSpaces_of_head_ne _ _ (by simp [h0s])]
    simp only [popLists]
    rw [if_neg (by decide : ¬(0 : Nat) = 0 + 4)]
    simp only [if_neg h0m, if_neg h0g]
  have htl : tokenizeLine ⟨0, [], 0⟩ (line.toList ++ ['\n']) =
      ((line.toList ++ ['\n']).map textTok, ⟨0, [], 0⟩) := by
    rw [tokenizeLine, if_neg hblank, htb]
    rfl
  rw [tokenize, lexLines, splitNL_no_newline _ hnl, List.map_singleton]
  simp only [tokenizeLines, htl]
  simp [resetContext, endBQs, endBQGo, closeFrames]

/-- C5 (amended): a single line of plain text with no markup characters
parses to a Document with one Paragraph holding one Text node whose
text is the line followed by a newline, rendering to
"<p>" ++ line ++ "\n</p>". -/
theorem c5_trivial_line_roundtrip (f : Nat) (line : String)
    (hnl : '\n' ∉ line.toList)
    (hws : ∃ c ∈ line.toList, jsWhitespace c = false)
    (hchars : ∀ c ∈ line.toList, isStyleChar c = false ∧ c ≠ '|')
    (hhead : ∀ c, line.toList.head? = some c → c ≠ ' ' ∧ c ≠ '#' ∧ c ≠ '>') :
    scribedown (f + 6) line =
      PRes.ok (Node.document [Node.paragraph [Node.text (line ++ "\n")]]) [] ∧
    scribeHtml (f + 6) line = some ("<p>" ++ line ++ "\n</p>") := by
  obtain ⟨c₀, cs', hl⟩ : ∃ c cs', line.toList = c :: cs' := by
    obtain ⟨cw, hcw, _⟩ := hws
    cases h : line.toList with
    | nil => rw [h] at hcw; cases hcw
    | cons a l => exact ⟨a, l, rfl⟩
  have hmem₀ : c₀ ∈ line.toList := by rw [hl]; exact List.mem_cons_self _ _
  have hh := hhead c₀ (by rw [hl]; rfl)
  have hc₀chars := hchars c₀ hmem₀
  have hm : ¬(c₀ = '-' ∨ c₀ = '+' ∨ c₀ = '*') := by
    rintro (rfl | rfl | rfl) <;> exact absurd hc₀chars.1 (by decide)
  have hc₀nl : c₀ ≠ '\n' := fun hh2 => hnl (hh2 ▸ hmem₀)
  have htk := tokenize_plain line hnl hws (fun c hc => by
    rw [hl] at hc
    injection hc with hc
    subst hc
    exact ⟨hh.1, hm, hh.2.2⟩)
  have hall' : ∀ c ∈ c₀ :: (cs' ++ ['\n']), isStyleChar c = false ∧ c ≠ '|' := by
    intro c hc
    rcases List.mem_cons.mp hc with rfl | hc2
    · exact hc₀chars
    · rcases List.mem_append.mp hc2 with h3 | h4
      · exact hchars c (by rw [hl]; exact List.mem_cons_of_mem _ h3)
      · rcases List.mem_singleton.mp h4 with rfl
        exact ⟨by decide, by decide⟩
  have hpd := parseDocLoop_plain f c₀ (cs' ++ ['\n']) hall' ⟨hc₀nl, hh.2.1⟩
  have hmkS : String.mk (c₀ :: (cs' ++ ['\n'])) = line ++ "\n" := by
    rw [show c₀ :: (cs' ++ ['\n']) = (c₀ :: cs') ++ ['\n'] from rfl, ← hl]
    exact stringMk_append_newline line
  have hparse : scribedown (f + 6) line =
      PRes.ok (Node.document [Node.paragraph [Node.text (line ++ "\n")]]) [] := by
    rw [scribedown, htk, hl, List.cons_append, parseDocument, hpd, hmkS]
  refine ⟨hparse, ?_⟩
  rw [scribeHtml, hparse]
  show some ("<p>" ++ (line ++ "\n") ++ "</p>") = some ("<p>" ++ line ++ "\n</p>")
  rw [String.append_assoc "<p>" (line ++ "\n") "</p>",
    String.append_assoc line "\n" "</p>",
    show ("\n" : String) ++ "</p>" = "\n</p>" from rfl,
    ← String.append_assoc]

/-- C5 witness: the line "hi". -/
theorem c5_witness :
    ('\n' ∉ "hi".toList ∧ (∃ c ∈ "hi".toList, jsWhitespace c = false) ∧
      (∀ c ∈ "hi".toList, isStyleChar c = false ∧ c ≠ '|') ∧
      (∀ c, "hi".toList.head? = some c → c ≠ ' ' ∧ c ≠ '#' ∧ c ≠ '>')) ∧
    scribedown 99 "hi" =
      PRes.ok (Node.document [Node.paragraph [Node.text ("hi" ++ "\n")]]) [] ∧
    scribeHtml 99 "hi" = some ("<p>" ++ "hi" ++ "\n</p>") :=
  ⟨⟨by decide, ⟨'h', by decide, by decide⟩, by decide, by decide⟩,
   c5_trivial_line_roundtrip 93 "hi" (by decide) ⟨'h', by decide, by decide⟩
     (by decide) (by decide)⟩

end ScribeDown
namespace ScribeDown

theorem balOk_append (o c : Tok) : ∀ (l₁ l₂ : List Token) (n : Nat),
    balOk o c n (l₁ ++ l₂) = (balOk o c n l₁ && balOk o c (creditAfter o c n l₁) l₂) := by
  intro l₁
  induction l₁ with
  | nil => intro l₂ n; simp [balOk, creditAfter]
  | cons t l₁ ih =>
    intro l₂ n
    rw [List.cons_append]
    simp only [balOk, creditAfter]
    by_cases hc : (t.tok == c) = true
    · by_cases hn : n = 0
      · simp [hc, hn]
      · simp [hc, hn, ih]
    · by_cases ho : (t.tok == o) = true
      · simp [hc, ho, ih]
      · simp [hc, ho, ih]

theorem creditAfter_append (o c : Tok) : ∀ (l₁ l₂ : List Token) (n : Nat),
    creditAfter o c n (l₁ ++ l₂) = creditAfter o c (creditAfter o c n l₁) l₂ := by
  intro l₁
  induction l₁ with
  | nil => intro l₂ n; rfl
  | cons t l₁ ih =>
    intro l₂ n
    rw [List.cons_append]
    simp only [creditAfter]
    by_cases hc : (t.tok == c) = true
    · simp [hc, ih]
    · by_cases ho : (t.tok == o) = true
      · simp [hc, ho, ih]
      · simp [hc, ho, ih]

theorem balOk_nonrel (o c : Tok) : ∀ (l : List Token),
    (∀ t ∈ l, t.tok ≠ o ∧ t.tok ≠ c) → ∀ (n : Nat),
    balOk o c n l = true ∧ creditAfter o c n l = n := by
  intro l
  induction l with
  | nil => intro _ n; exact ⟨rfl, rfl⟩
  | cons t l ih =>
    intro h n
    obtain ⟨ho, hc⟩ := h t (List.mem_cons_self t l)
    simp only [balOk, creditAfter]
    have hc' : (t.tok == c) = false := by simpa using hc
    have ho' : (t.tok == o) = false := by simpa using ho
    simp only [hc', ho', Bool.false_eq_true, if_false]
    exact ih (fun u hu => h u (List.mem_cons_of_mem _ hu)) n

theorem cnt_of_balOk (o c : Tok) (hne : o ≠ c) : ∀ (l : List Token) (n : Nat),
    balOk o c n l = true → creditAfter o c n l + cntTok c l = n + cntTok o l := by
  intro l
  induction l with
  | nil => intro n _; simp [creditAfter, cntTok]
  | cons t l ih =>
    intro n hb
    simp only [balOk] at hb
    simp only [creditAfter, cntTok, List.countP_cons]
    by_cases hc : (t.tok == c) = true
    · simp only [hc, if_true] at hb ⊢
      by_cases hn : n = 0
      · rw [if_pos hn] at hb; cases hb
      · rw [if_neg hn] at hb
        have hceq : t.tok = c := by simpa using hc
        have hco : (t.tok == o) = false := by
          rw [beq_eq_false_iff_ne, hceq]
          exact fun h => hne h.symm
        have := ih (n - 1) hb
        simp only [cntTok] at this
        simp only [hco, Bool.false_eq_true, if_false]
        omega
    · simp only [hc, Bool.false_eq_true, if_false] at hb ⊢
      by_cases ho : (t.tok == o) = true
      · simp only [ho, if_true] at hb ⊢
        have := ih (n + 1) hb
        simp only [cntTok] at this
        omega
      · simp only [ho, Bool.false_eq_true, if_false] at hb ⊢
        have := ih n hb
        simp only [cntTok] at this
        omega

theorem chunk_append (o c : Tok) {n₁ n₂ n₃ : Nat} {l₁ l₂ : List Token}
    (h₁ : balOk o c n₁ l₁ = true ∧ creditAfter o c n₁ l₁ = n₂)
    (h₂ : balOk o c n₂ l₂ = true ∧ creditAfter o c n₂ l₂ = n₃) :
    balOk o c n₁ (l₁ ++ l₂) = true ∧ creditAfter o c n₁ (l₁ ++ l₂) = n₃ := by
  rw [balOk_append, creditAfter_append, h₁.1, h₁.2, h₂.2]
  exact ⟨by simp [h₂.1], rfl⟩

theorem chunk_other {o c : Tok} {t : Token} (h1 : (t.tok == o) = false)
    (h2 : (t.tok == c) = false) (n : Nat) (ts : List Token) :
    balOk o c n (t :: ts) = balOk o c n ts ∧
    creditAfter o c n (t :: ts) = creditAfter o c n ts := by
  simp [balOk, creditAfter, h1, h2]

theorem chunk_close {o c : Tok} {t : Token} (h : (t.tok == c) = true)
    (n : Nat) (ts : List Token) :
    balOk o c (n + 1) (t :: ts) = balOk o c n ts ∧
    creditAfter o c (n + 1) (t :: ts) = creditAfter o c n ts := by
  simp [balOk, creditAfter, h]

theorem chunk_open {o c : Tok} {t : Token} (hc : (t.tok == c) = false)
    (ho : (t.tok == o) = true) (n : Nat) (ts : List Token) :
    balOk o c n (t :: ts) = balOk o c (n + 1) ts ∧
    creditAfter o c n (t :: ts) = creditAfter o c (n + 1) ts := by
  simp [balOk, creditAfter, hc, ho]

end ScribeDown
namespace ScribeDown

theorem popLists_chunk_L : ∀ (l : List Frame) (ind : Nat),
    balOk Tok.LIST Tok.END_LIST l.length (popLists l ind).1 = true ∧
    creditAfter Tok.LIST Tok.END_LIST l.length (popLists l ind).1 = (popLists l ind).2.length := by
  intro l
  induction l with
  | nil => intro ind; exact ⟨rfl, rfl⟩
  | cons fr l ih =>
    intro ind
    have H := ih ind
    simp only [popLists]
    by_cases h : ind < fr.anchor
    · rcases hp : popLists l ind with ⟨ts, l'⟩
      rw [hp] at H
      rw [if_pos h]
      simp [balOk, creditAfter, beq_iff_eq, H.1, H.2]
    · rw [if_neg h]
      exact ⟨rfl, rfl⟩

theorem popLists_chunk_LI : ∀ (l : List Frame) (ind : Nat),
    balOk Tok.LIST_ITEM Tok.END_LIST_ITEM l.length (popLists l ind).1 = true ∧
    creditAfter Tok.LIST_ITEM Tok.END_LIST_ITEM l.length (popLists l ind).1 =
      (popLists l ind).2.length := by
  intro l
  induction l with
  | nil => intro ind; exact ⟨rfl, rfl⟩
  | cons fr l ih =>
    intro ind
    have H := ih ind
    simp only [popLists]
    by_cases h : ind < fr.anchor
    · rcases hp : popLists l ind with ⟨ts, l'⟩
      rw [hp] at H
      rw [if_pos h]
      simp [balOk, creditAfter, beq_iff_eq, H.1, H.2]
    · rw [if_neg h]
      exact ⟨rfl, rfl⟩

theorem popLists_toks : ∀ (l : List Frame) (ind : Nat) (t : Token),
    t ∈ (popLists l ind).1 → t.tok = Tok.END_LIST_ITEM ∨ t.tok = Tok.END_LIST := by
  intro l
  induction l with
  | nil => intro ind t ht; cases ht
  | cons fr l ih =>
    intro ind t ht
    simp only [popLists] at ht
    by_cases h : ind < fr.anchor
    · rw [if_pos h] at ht
      rcases hp : popLists l ind with ⟨ts, l'⟩
      rw [hp] at ht
      simp only at ht
      rcases List.mem_cons.mp ht with rfl | ht2
      · exact Or.inl rfl
      · rcases List.mem_cons.mp ht2 with rfl | ht3
        · exact Or.inr rfl
        · exact ih ind t (by rw [hp]; exact ht3)
    · rw [if_neg h] at ht
      cases ht

theorem endBQGo_chunk : ∀ (k i n : Nat), k ≤ n →
    balOk Tok.BLOCK_QUOTE Tok.END_BLOCK_QUOTE n (endBQGo k i) = true ∧
    creditAfter Tok.BLOCK_QUOTE Tok.END_BLOCK_QUOTE n (endBQGo k i) = n - k := by
  intro k
  induction k with
  | zero => intro i n _; exact ⟨rfl, by simp [creditAfter]⟩
  | succ k ih =>
    intro i n hk
    rw [endBQGo]
    obtain ⟨m, rfl⟩ : ∃ m, n = m + 1 := ⟨n - 1, by omega⟩
    have H := ih (i - 1) m (by omega)
    constructor
    · rw [(chunk_close (o := Tok.BLOCK_QUOTE) (c := Tok.END_BLOCK_QUOTE) (t := ⟨Tok.END_BLOCK_QUOTE, "", TokData.nat i⟩) rfl m (endBQGo k (i - 1))).1]
      exact H.1
    · rw [(chunk_close (o := Tok.BLOCK_QUOTE) (c := Tok.END_BLOCK_QUOTE) (t := ⟨Tok.END_BLOCK_QUOTE, "", TokData.nat i⟩) rfl m (endBQGo k (i - 1))).2]
      rw [H.2]
      omega

theorem endBQGo_toks : ∀ (k i : Nat) (t : Token), t ∈ endBQGo k i →
    t.tok = Tok.END_BLOCK_QUOTE := by
  intro k
  induction k with
  | zero => intro i t ht; cases ht
  | succ k ih =>
    intro i t ht
    rw [endBQGo] at ht
    rcases List.mem_cons.mp ht with rfl | ht2
    · rfl
    · exact ih (i - 1) t ht2

theorem openBQGo_chunk : ∀ (k i : Nat) (v : String) (n : Nat),
    balOk Tok.BLOCK_QUOTE Tok.END_BLOCK_QUOTE n (openBQGo k i v) = true ∧
    creditAfter Tok.BLOCK_QUOTE Tok.END_BLOCK_QUOTE n (openBQGo k i v) = n + k := by
  intro k
  induction k with
  | zero => intro i v n; exact ⟨rfl, rfl⟩
  | succ k ih =>
    intro i v n
    rw [openBQGo]
    have H := ih (i + 1) v (n + 1)
    constructor
    · rw [(chunk_open (o := Tok.BLOCK_QUOTE) (c := Tok.END_BLOCK_QUOTE)
        (t := ⟨Tok.BLOCK_QUOTE, if k = 0 then v else "", TokData.nat (i + 1)⟩)
        rfl rfl n (openBQGo k (i + 1) v)).1]
      exact H.1
    · rw [(chunk_open (o := Tok.BLOCK_QUOTE) (c := Tok.END_BLOCK_QUOTE)
        (t := ⟨Tok.BLOCK_QUOTE, if k = 0 then v else "", TokData.nat (i + 1)⟩)
        rfl rfl n (openBQGo k (i + 1) v)).2]
      rw [H.2]
      omega

theorem openBQGo_toks : ∀ (k i : Nat) (v : String) (t : Token), t ∈ openBQGo k i v →
    t.tok = Tok.BLOCK_QUOTE := by
  intro k
  induction k with
  | zero => intro i v t ht; cases ht
  | succ k ih =>
    intro i v t ht
    rw [openBQGo] at ht
    rcases List.mem_cons.mp ht with rfl | ht2
    · rfl
    · exact ih (i + 1) v t ht2

theorem closeFrames_chunk_L : ∀ (l : List Frame) (n : Nat),
    balOk Tok.LIST Tok.END_LIST (l.length + n) (closeFrames l) = true ∧
    creditAfter Tok.LIST Tok.END_LIST (l.length + n) (closeFrames l) = n := by
  intro l
  induction l with
  | nil => intro n; exact ⟨rfl, by simp [creditAfter]⟩
  | cons fr l ih =>
    intro n
    rw [closeFrames]
    have H := ih n
    simp [balOk, creditAfter, beq_iff_eq, H.1, H.2, Nat.succ_add,
      List.length_cons]

theorem closeFrames_chunk_LI : ∀ (l : List Frame) (n : Nat),
    balOk Tok.LIST_ITEM Tok.END_LIST_ITEM (l.length + n) (closeFrames l) = true ∧
    creditAfter Tok.LIST_ITEM Tok.END_LIST_ITEM (l.length + n) (closeFrames l) = n := by
  intro l
  induction l with
  | nil => intro n; exact ⟨rfl, by simp [creditAfter]⟩
  | cons fr l ih =>
    intro n
    rw [closeFrames]
    have H := ih n
    simp [balOk, creditAfter, beq_iff_eq, H.1, H.2, Nat.succ_add,
      List.length_cons]

theorem closeFrames_toks : ∀ (l : List Frame) (t : Token), t ∈ closeFrames l →
    t.tok = Tok.END_LIST_ITEM ∨ t.tok = Tok.END_LIST := by
  intro l
  induction l with
  | nil => intro t ht; cases ht
  | cons fr l ih =>
    intro t ht
    rw [closeFrames] at ht
    rcases List.mem_cons.mp ht with rfl | ht2
    · exact Or.inl rfl
    · rcases List.mem_cons.mp ht2 with rfl | ht3
      · exact Or.inr rfl
      · exact ih t ht3

theorem listDecision_chunk_L (lists : List Frame) (ind li : Nat) :
    balOk Tok.LIST Tok.END_LIST lists.length (listDecision lists ind li).1 = true ∧
    creditAfter Tok.LIST Tok.END_LIST lists.length (listDecision lists ind li).1 =
      (listDecision lists ind li).2.length := by
  cases lists with
  | nil => exact ⟨rfl, rfl⟩
  | cons fr l =>
    simp only [listDecision]
    by_cases h : ind < fr.indent
    · rw [if_pos h]
      exact ⟨rfl, rfl⟩
    · rw [if_neg h]
      exact ⟨rfl, rfl⟩

theorem listDecision_chunk_LI (lists : List Frame) (ind li : Nat) :
    balOk Tok.LIST_ITEM Tok.END_LIST_ITEM lists.length (listDecision lists ind li).1 = true ∧
    creditAfter Tok.LIST_ITEM Tok.END_LIST_ITEM lists.length (listDecision lists ind li).1 + 1 =
      (listDecision lists ind li).2.length := by
  cases lists with
  | nil => exact ⟨rfl, rfl⟩
  | cons fr l =>
    simp only [listDecision]
    by_cases h : ind < fr.indent
    · rw [if_pos h]
      simp [balOk, creditAfter, beq_iff_eq]
    · rw [if_neg h]
      exact ⟨rfl, rfl⟩

theorem listDecision_toks (lists : List Frame) (ind li : Nat) (t : Token)
    (ht : t ∈ (listDecision lists ind li).1) :
    t.tok = Tok.END_LIST_ITEM ∨ t.tok = Tok.LIST := by
  cases lists with
  | nil =>
    simp only [listDecision] at ht
    rcases List.mem_singleton.mp ht with rfl
    exact Or.inr rfl
  | cons fr l =>
    simp only [listDecision] at ht
    by_cases h : ind < fr.indent
    · rw [if_pos h] at ht
      rcases List.mem_singleton.mp ht with rfl
      exact Or.inl rfl
    · rw [if_neg h] at ht
      rcases List.mem_singleton.mp ht with rfl
      exact Or.inr rfl

end ScribeDown
namespace ScribeDown

theorem tokenizeBlock_chunks (s : LexState) (line : List Char) :
    (balOk Tok.BLOCK_QUOTE Tok.END_BLOCK_QUOTE s.blockQuote (tokenizeBlock s line).1 = true ∧
     creditAfter Tok.BLOCK_QUOTE Tok.END_BLOCK_QUOTE s.blockQuote (tokenizeBlock s line).1 =
       (tokenizeBlock s line).2.1.blockQuote) ∧
    (balOk Tok.LIST Tok.END_LIST s.lists.length (tokenizeBlock s line).1 = true ∧
     creditAfter Tok.LIST Tok.END_LIST s.lists.length (tokenizeBlock s line).1 =
       (tokenizeBlock s line).2.1.lists.length) ∧
    (balOk Tok.LIST_ITEM Tok.END_LIST_ITEM s.lists.length (tokenizeBlock s line).1 = true ∧
     creditAfter Tok.LIST_ITEM Tok.END_LIST_ITEM s.lists.length (tokenizeBlock s line).1 =
       (tokenizeBlock s line).2.1.lists.length) := by
  have hsingle : ∀ (o c : Tok) (t : Token), t.tok ≠ o → t.tok ≠ c → ∀ n : Nat,
      balOk o c n [t] = true ∧ creditAfter o c n [t] = n :=
    fun o c t ho hc n => balOk_nonrel o c [t] (fun u hu => by
      rcases List.mem_singleton.mp hu with rfl
      exact ⟨ho, hc⟩) n
  have hpair : ∀ (o c : Tok) (t u : Token), t.tok ≠ o → t.tok ≠ c → u.tok ≠ o → u.tok ≠ c →
      ∀ n : Nat, balOk o c n [t, u] = true ∧ creditAfter o c n [t, u] = n :=
    fun o c t u h1 h2 h3 h4 n => balOk_nonrel o c [t, u] (fun w hw => by
      rcases List.mem_cons.mp hw with rfl | hw2
      · exact ⟨h1, h2⟩
      · rcases List.mem_singleton.mp hw2 with rfl
        exact ⟨h3, h4⟩) n
  rw [tokenizeBlock]
  rcases hts : takeSpaces (s.indentation + 4) line with ⟨ind, cs₁⟩
  simp only
  have HLpop := popLists_chunk_L s.lists ind
  have HLIpop := popLists_chunk_LI s.lists ind
  have Hpoptoks := popLists_toks s.lists ind
  rcases hp : popLists s.lists ind with ⟨closeToks, lists₁⟩
  rw [hp] at HLpop HLIpop Hpoptoks
  simp only at HLpop HLIpop Hpoptoks ⊢
  have HpopBQ : balOk Tok.BLOCK_QUOTE Tok.END_BLOCK_QUOTE s.blockQuote closeToks = true ∧
      creditAfter Tok.BLOCK_QUOTE Tok.END_BLOCK_QUOTE s.blockQuote closeToks = s.blockQuote :=
    balOk_nonrel _ _ closeToks (fun t ht => by
      rcases Hpoptoks t ht with h1 | h1 <;> rw [h1] <;> exact ⟨by decide, by decide⟩) _
  by_cases hcode : ind = s.indentation + 4
  · rw [if_pos hcode]
    exact ⟨chunk_append _ _ HpopBQ (hsingle Tok.BLOCK_QUOTE Tok.END_BLOCK_QUOTE ⟨Tok.CODE_BLOCK, String.mk cs₁, TokData.nat ind⟩ (fun h => nomatch h) (fun h => nomatch h) _),
           chunk_append _ _ HLpop (hsingle Tok.LIST Tok.END_LIST ⟨Tok.CODE_BLOCK, String.mk cs₁, TokData.nat ind⟩ (fun h => nomatch h) (fun h => nomatch h) _),
           chunk_append _ _ HLIpop (hsingle Tok.LIST_ITEM Tok.END_LIST_ITEM ⟨Tok.CODE_BLOCK, String.mk cs₁, TokData.nat ind⟩ (fun h => nomatch h) (fun h => nomatch h) _)⟩
  · rw [if_neg hcode]
    cases cs₁ with
    | nil => exact ⟨HpopBQ, HLpop, HLIpop⟩
    | cons c cs₂ =>
      by_cases hmk : c = '-' ∨ c = '+' ∨ c = '*'
      · simp only [if_pos hmk]
        cases cs₂ with
        | nil =>
          exact ⟨chunk_append _ _ HpopBQ (hsingle Tok.BLOCK_QUOTE Tok.END_BLOCK_QUOTE ⟨Tok.TEXT, String.mk [c], TokData.none⟩ (fun h => nomatch h) (fun h => nomatch h) _),
                 chunk_append _ _ HLpop (hsingle Tok.LIST Tok.END_LIST ⟨Tok.TEXT, String.mk [c], TokData.none⟩ (fun h => nomatch h) (fun h => nomatch h) _),
                 chunk_append _ _ HLIpop (hsingle Tok.LIST_ITEM Tok.END_LIST_ITEM ⟨Tok.TEXT, String.mk [c], TokData.none⟩ (fun h => nomatch h) (fun h => nomatch h) _)⟩
        | cons c₂ cs₃' =>
          by_cases hsp : c₂ = ' '
          · simp only [if_pos hsp]
            rcases hps : takeSpaces 5 (c₂ :: cs₃') with ⟨post, cs₃⟩
            simp only
            have HLld := listDecision_chunk_L lists₁ ind (ind + 1 + ((post - 1) % 4 + 1))
            have HLIld := listDecision_chunk_LI lists₁ ind (ind + 1 + ((post - 1) % 4 + 1))
            have Hldtoks := listDecision_toks lists₁ ind (ind + 1 + ((post - 1) % 4 + 1))
            rcases hld : listDecision lists₁ ind (ind + 1 + ((post - 1) % 4 + 1))
              with ⟨structToks, lists₂⟩
            rw [hld] at HLld HLIld Hldtoks
            simp only at HLld HLIld Hldtoks ⊢
            have HldBQ : balOk Tok.BLOCK_QUOTE Tok.END_BLOCK_QUOTE s.blockQuote structToks = true ∧
                creditAfter Tok.BLOCK_QUOTE Tok.END_BLOCK_QUOTE s.blockQuote structToks =
                  s.blockQuote :=
              balOk_nonrel _ _ structToks (fun t ht => by
                rcases Hldtoks t ht with h1 | h1 <;> rw [h1] <;> exact ⟨by decide, by decide⟩) _
            by_cases h5 : post = 5
            · rw [if_pos h5]
              refine ⟨chunk_append _ _ (chunk_append _ _ HpopBQ HldBQ) (hpair Tok.BLOCK_QUOTE Tok.END_BLOCK_QUOTE ⟨Tok.LIST_ITEM, String.mk (c :: List.replicate ((post - 1) % 4 + 1) ' '), TokData.frame ⟨ind, ind + 1 + ((post - 1) % 4 + 1)⟩⟩ ⟨Tok.CODE_BLOCK, String.mk cs₃, TokData.nat (ind + 1 + ((post - 1) % 4 + 1) + 4)⟩ (fun h => nomatch h) (fun h => nomatch h) (fun h => nomatch h) (fun h => nomatch h) _), ?_, ?_⟩
              · exact chunk_append _ _ (chunk_append _ _ HLpop HLld) (hpair Tok.LIST Tok.END_LIST ⟨Tok.LIST_ITEM, String.mk (c :: List.replicate ((post - 1) % 4 + 1) ' '), TokData.frame ⟨ind, ind + 1 + ((post - 1) % 4 + 1)⟩⟩ ⟨Tok.CODE_BLOCK, String.mk cs₃, TokData.nat (ind + 1 + ((post - 1) % 4 + 1) + 4)⟩ (fun h => nomatch h) (fun h => nomatch h) (fun h => nomatch h) (fun h => nomatch h) _)
              · refine chunk_append _ _ (chunk_append _ _ HLIpop ⟨HLIld.1, rfl⟩) ?_
                constructor
                · rw [(chunk_open (o := Tok.LIST_ITEM) (c := Tok.END_LIST_ITEM)
                    (t := ⟨Tok.LIST_ITEM, String.mk (c :: List.replicate ((post - 1) % 4 + 1) ' '), TokData.frame ⟨ind, ind + 1 + ((post - 1) % 4 + 1)⟩⟩) rfl rfl _ _).1]
                  exact ((hsingle Tok.LIST_ITEM Tok.END_LIST_ITEM ⟨Tok.CODE_BLOCK, String.mk cs₃, TokData.nat (ind + 1 + ((post - 1) % 4 + 1) + 4)⟩ (fun h => nomatch h) (fun h => nomatch h) _)).1
                · rw [(chunk_open (o := Tok.LIST_ITEM) (c := Tok.END_LIST_ITEM)
                    (t := ⟨Tok.LIST_ITEM, String.mk (c :: List.replicate ((post - 1) % 4 + 1) ' '), TokData.frame ⟨ind, ind + 1 + ((post - 1) % 4 + 1)⟩⟩) rfl rfl _ _).2,
                    ((hsingle Tok.LIST_ITEM Tok.END_LIST_ITEM ⟨Tok.CODE_BLOCK, String.mk cs₃, TokData.nat (ind + 1 + ((post - 1) % 4 + 1) + 4)⟩ (fun h => nomatch h) (fun h => nomatch h) _)).2]
                  exact HLIld.2
            · rw [if_neg h5]
              refine ⟨chunk_append _ _ (chunk_append _ _ HpopBQ HldBQ) (hsingle Tok.BLOCK_QUOTE Tok.END_BLOCK_QUOTE ⟨Tok.LIST_ITEM, String.mk (c :: List.replicate ((post - 1) % 4 + 1) ' '), TokData.frame ⟨ind, ind + 1 + ((post - 1) % 4 + 1)⟩⟩ (fun h => nomatch h) (fun h => nomatch h) _), ?_, ?_⟩
              · exact chunk_append _ _ (chunk_append _ _ HLpop HLld) (hsingle Tok.LIST Tok.END_LIST ⟨Tok.LIST_ITEM, String.mk (c :: List.replicate ((post - 1) % 4 + 1) ' '), TokData.frame ⟨ind, ind + 1 + ((post - 1) % 4 + 1)⟩⟩ (fun h => nomatch h) (fun h => nomatch h) _)
              · refine chunk_append _ _ (chunk_append _ _ HLIpop ⟨HLIld.1, rfl⟩) ?_
                constructor
                · rw [(chunk_open (o := Tok.LIST_ITEM) (c := Tok.END_LIST_ITEM)
                    (t := ⟨Tok.LIST_ITEM, String.mk (c :: List.replicate ((post - 1) % 4 + 1) ' '), TokData.frame ⟨ind, ind + 1 + ((post - 1) % 4 + 1)⟩⟩) rfl rfl _ _).1]
                  rfl
                · rw [(chunk_open (o := Tok.LIST_ITEM) (c := Tok.END_LIST_ITEM)
                    (t := ⟨Tok.LIST_ITEM, String.mk (c :: List.replicate ((post - 1) % 4 + 1) ' '), TokData.frame ⟨ind, ind + 1 + ((post - 1) % 4 + 1)⟩⟩) rfl rfl _ _).2]
                  exact HLIld.2
          · simp only [if_neg hsp]
            exact ⟨chunk_append _ _ HpopBQ (hsingle Tok.BLOCK_QUOTE Tok.END_BLOCK_QUOTE ⟨Tok.TEXT, String.mk [c], TokData.none⟩ (fun h => nomatch h) (fun h => nomatch h) _),
                   chunk_append _ _ HLpop (hsingle Tok.LIST Tok.END_LIST ⟨Tok.TEXT, String.mk [c], TokData.none⟩ (fun h => nomatch h) (fun h => nomatch h) _),
                   chunk_append _ _ HLIpop (hsingle Tok.LIST_ITEM Tok.END_LIST_ITEM ⟨Tok.TEXT, String.mk [c], TokData.none⟩ (fun h => nomatch h) (fun h => nomatch h) _)⟩
      · simp only [if_neg hmk]
        by_cases hgt : c = '>'
        · simp only [if_pos hgt]
          rcases hq : quoteMarkers (c :: cs₂) with ⟨n, vr⟩
          rcases vr with ⟨v, r⟩
          simp only
          have Hend := endBQGo_chunk (s.blockQuote -
              (if n < s.blockQuote ∧ jsTrimL v ≠ jsTrimL line then s.blockQuote else n))
            s.blockQuote s.blockQuote (Nat.sub_le _ _)
          have Hopen := openBQGo_chunk
            ((if n < s.blockQuote ∧ jsTrimL v ≠ jsTrimL line then s.blockQuote else n) -
              s.blockQuote) s.blockQuote (String.mk v)
            (s.blockQuote - (s.blockQuote -
              (if n < s.blockQuote ∧ jsTrimL v ≠ jsTrimL line then s.blockQuote else n)))
          have Hbq : balOk Tok.BLOCK_QUOTE Tok.END_BLOCK_QUOTE s.blockQuote
              (endBQs s.blockQuote
                (if n < s.blockQuote ∧ jsTrimL v ≠ jsTrimL line then s.blockQuote else n) ++
               openBQs s.blockQuote
                (if n < s.blockQuote ∧ jsTrimL v ≠ jsTrimL line then s.blockQuote else n)
                (String.mk v)) = true ∧
              creditAfter Tok.BLOCK_QUOTE Tok.END_BLOCK_QUOTE s.blockQuote
              (endBQs s.blockQuote
                (if n < s.blockQuote ∧ jsTrimL v ≠ jsTrimL line then s.blockQuote else n) ++
               openBQs s.blockQuote
                (if n < s.blockQuote ∧ jsTrimL v ≠ jsTrimL line then s.blockQuote else n)
                (String.mk v)) =
              (if n < s.blockQuote ∧ jsTrimL v ≠ jsTrimL line then s.blockQuote else n) := by
            refine chunk_append _ _ ⟨Hend.1, Hend.2⟩ ⟨Hopen.1, ?_⟩
            show creditAfter Tok.BLOCK_QUOTE Tok.END_BLOCK_QUOTE _ (openBQGo _ _ _) = _
            rw [Hopen.2]
            omega
          have Hnon : ∀ (o c : Tok), o ≠ Tok.BLOCK_QUOTE → o ≠ Tok.END_BLOCK_QUOTE →
              c ≠ Tok.BLOCK_QUOTE → c ≠ Tok.END_BLOCK_QUOTE → ∀ m : Nat,
              balOk o c m
                (endBQs s.blockQuote
                  (if n < s.blockQuote ∧ jsTrimL v ≠ jsTrimL line then s.blockQuote else n) ++
                 openBQs s.blockQuote
                  (if n < s.blockQuote ∧ jsTrimL v ≠ jsTrimL line then s.blockQuote else n)
                  (String.mk v)) = true ∧
              creditAfter o c m
                (endBQs s.blockQuote
                  (if n < s.blockQuote ∧ jsTrimL v ≠ jsTrimL line then s.blockQuote else n) ++
                 openBQs s.blockQuote
                  (if n < s.blockQuote ∧ jsTrimL v ≠ jsTrimL line then s.blockQuote else n)
                  (String.mk v)) = m := fun o c ho1 ho2 hc1 hc2 m =>
            balOk_nonrel o c _ (fun t ht => by
              rcases List.mem_append.mp ht with h1 | h1
              · rw [endBQGo_toks _ _ _ h1]
                exact ⟨fun h => ho2 h.symm, fun h => hc2 h.symm⟩
              · rw [openBQGo_toks _ _ _ _ h1]
                exact ⟨fun h => ho1 h.symm, fun h => hc1 h.symm⟩) m
          simp only [List.append_assoc]
          exact ⟨chunk_append _ _ HpopBQ Hbq,
                 chunk_append _ _ HLpop (Hnon Tok.LIST Tok.END_LIST
                   (by decide) (by decide) (by decide) (by decide) _),
                 chunk_append _ _ HLIpop (Hnon Tok.LIST_ITEM Tok.END_LIST_ITEM
                   (by decide) (by decide) (by decide) (by decide) _)⟩
        · simp only [if_neg hgt]
          exact ⟨HpopBQ, HLpop, HLIpop⟩

theorem resetContext_chunks (s : LexState) :
    (balOk Tok.BLOCK_QUOTE Tok.END_BLOCK_QUOTE s.blockQuote (resetContext s).1 = true ∧
     creditAfter Tok.BLOCK_QUOTE Tok.END_BLOCK_QUOTE s.blockQuote (resetContext s).1 =
       (resetContext s).2.blockQuote) ∧
    (balOk Tok.LIST Tok.END_LIST s.lists.length (resetContext s).1 = true ∧
     creditAfter Tok.LIST Tok.END_LIST s.lists.length (resetContext s).1 =
       (resetContext s).2.lists.length) ∧
    (balOk Tok.LIST_ITEM Tok.END_LIST_ITEM s.lists.length (resetContext s).1 = true ∧
     creditAfter Tok.LIST_ITEM Tok.END_LIST_ITEM s.lists.length (resetContext s).1 =
       (resetContext s).2.lists.length) := by
  rw [resetContext]
  simp only
  have Hend := endBQGo_chunk s.blockQuote s.blockQuote s.blockQuote (le_refl _)
  have HendE : creditAfter Tok.BLOCK_QUOTE Tok.END_BLOCK_QUOTE s.blockQuote
      (endBQGo s.blockQuote s.blockQuote) = 0 := by
    rw [Hend.2]
    omega
  have HcfBQ : ∀ m : Nat,
      balOk Tok.BLOCK_QUOTE Tok.END_BLOCK_QUOTE m (closeFrames s.lists) = true ∧
      creditAfter Tok.BLOCK_QUOTE Tok.END_BLOCK_QUOTE m (closeFrames s.lists) = m :=
    balOk_nonrel _ _ _ (fun t ht => by
      rcases closeFrames_toks s.lists t ht with h1 | h1 <;> rw [h1] <;>
        exact ⟨(fun h => nomatch h), (fun h => nomatch h)⟩)
  have HbqE : ∀ (o c : Tok), o ≠ Tok.END_BLOCK_QUOTE → c ≠ Tok.END_BLOCK_QUOTE → ∀ m : Nat,
      balOk o c m (endBQGo s.blockQuote s.blockQuote) = true ∧
      creditAfter o c m (endBQGo s.blockQuote s.blockQuote) = m := fun o c ho hc =>
    balOk_nonrel o c _ (fun t ht => by
      rw [endBQGo_toks _ _ _ ht]
      exact ⟨fun h => ho h.symm, fun h => hc h.symm⟩)
  have HL := closeFrames_chunk_L s.lists 0
  have HLI := closeFrames_chunk_LI s.lists 0
  rw [Nat.add_zero] at HL HLI
  exact ⟨chunk_append _ _ ⟨Hend.1, HendE⟩ (HcfBQ 0),
         chunk_append _ _ (HbqE Tok.LIST Tok.END_LIST (fun h => nomatch h) (fun h => nomatch h)
           s.lists.length) HL,
         chunk_append _ _ (HbqE Tok.LIST_ITEM Tok.END_LIST_ITEM (fun h => nomatch h)
           (fun h => nomatch h) s.lists.length) HLI⟩

theorem tokenizeLine_chunks (s : LexState) (line : List Char) :
    (balOk Tok.BLOCK_QUOTE Tok.END_BLOCK_QUOTE s.blockQuote (tokenizeLine s line).1 = true ∧
     creditAfter Tok.BLOCK_QUOTE Tok.END_BLOCK_QUOTE s.blockQuote (tokenizeLine s line).1 =
       (tokenizeLine s line).2.blockQuote) ∧
    (balOk Tok.LIST Tok.END_LIST s.lists.length (tokenizeLine s line).1 = true ∧
     creditAfter Tok.LIST Tok.END_LIST s.lists.length (tokenizeLine s line).1 =
       (tokenizeLine s line).2.lists.length) ∧
    (balOk Tok.LIST_ITEM Tok.END_LIST_ITEM s.lists.length (tokenizeLine s line).1 = true ∧
     creditAfter Tok.LIST_ITEM Tok.END_LIST_ITEM s.lists.length (tokenizeLine s line).1 =
       (tokenizeLine s line).2.lists.length) := by
  rw [tokenizeLine]
  by_cases hb : jsTrimL line = []
  · rw [if_pos hb]
    have HR := resetContext_chunks s
    rcases hr : resetContext s with ⟨ts, s'⟩
    rw [hr] at HR
    simp only at HR ⊢
    have Hbl : ∀ (o c : Tok), o ≠ Tok.BLANK_LINE → c ≠ Tok.BLANK_LINE → ∀ m : Nat,
        balOk o c m [(⟨Tok.BLANK_LINE, "", TokData.none⟩ : Token)] = true ∧
        creditAfter o c m [(⟨Tok.BLANK_LINE, "", TokData.none⟩ : Token)] = m := fun o c ho hc =>
      balOk_nonrel o c _ (fun t ht => by
        rcases List.mem_singleton.mp ht with rfl
        exact ⟨fun h => ho h.symm, fun h => hc h.symm⟩)
    exact ⟨chunk_append _ _ HR.1 (Hbl Tok.BLOCK_QUOTE Tok.END_BLOCK_QUOTE
             (fun h => nomatch h) (fun h => nomatch h) s'.blockQuote),
           chunk_append _ _ HR.2.1 (Hbl Tok.LIST Tok.END_LIST
             (fun h => nomatch h) (fun h => nomatch h) s'.lists.length),
           chunk_append _ _ HR.2.2 (Hbl Tok.LIST_ITEM Tok.END_LIST_ITEM
             (fun h => nomatch h) (fun h => nomatch h) s'.lists.length)⟩
  · rw [if_neg hb]
    have HB := tokenizeBlock_chunks s line
    rcases htb : tokenizeBlock s line with ⟨bts, sr⟩
    rcases sr with ⟨s', rest⟩
    rw [htb] at HB
    simp only at HB ⊢
    have Htx : ∀ (o c : Tok), o ≠ Tok.TEXT → c ≠ Tok.TEXT → ∀ m : Nat,
        balOk o c m (rest.map textTok) = true ∧
        creditAfter o c m (rest.map textTok) = m := fun o c ho hc =>
      balOk_nonrel o c _ (fun t ht => by
        rcases List.mem_map.mp ht with ⟨ch, _, rfl⟩
        exact ⟨fun h => ho h.symm, fun h => hc h.symm⟩)
    exact ⟨chunk_append _ _ HB.1 (Htx Tok.BLOCK_QUOTE Tok.END_BLOCK_QUOTE
             (fun h => nomatch h) (fun h => nomatch h) s'.blockQuote),
           chunk_append _ _ HB.2.1 (Htx Tok.LIST Tok.END_LIST
             (fun h => nomatch h) (fun h => nomatch h) s'.lists.length),
           chunk_append _ _ HB.2.2 (Htx Tok.LIST_ITEM Tok.END_LIST_ITEM
             (fun h => nomatch h) (fun h => nomatch h) s'.lists.length)⟩

theorem tokenizeLines_chunks : ∀ (ls : List (List Char)) (s : LexState),
    (balOk Tok.BLOCK_QUOTE Tok.END_BLOCK_QUOTE s.blockQuote (tokenizeLines s ls).1 = true ∧
     creditAfter Tok.BLOCK_QUOTE Tok.END_BLOCK_QUOTE s.blockQuote (tokenizeLines s ls).1 =
       (tokenizeLines s ls).2.blockQuote) ∧
    (balOk Tok.LIST Tok.END_LIST s.lists.length (tokenizeLines s ls).1 = true ∧
     creditAfter Tok.LIST Tok.END_LIST s.lists.length (tokenizeLines s ls).1 =
       (tokenizeLines s ls).2.lists.length) ∧
    (balOk Tok.LIST_ITEM Tok.END_LIST_ITEM s.lists.length (tokenizeLines s ls).1 = true ∧
     creditAfter Tok.LIST_ITEM Tok.END_LIST_ITEM s.lists.length (tokenizeLines s ls).1 =
       (tokenizeLines s ls).2.lists.length) := by
  intro ls
  induction ls with
  | nil =>
    intro s
    exact ⟨⟨rfl, rfl⟩, ⟨rfl, rfl⟩, ⟨rfl, rfl⟩⟩
  | cons l ls ih =>
    intro s
    rw [tokenizeLines]
    have HL := tokenizeLine_chunks s l
    rcases hl : tokenizeLine s l with ⟨ts, s'⟩
    rw [hl] at HL
    simp only at HL ⊢
    have HR := ih s'
    rcases hr : tokenizeLines s' ls with ⟨rest, s''⟩
    rw [hr] at HR
    simp only at HR ⊢
    exact ⟨chunk_append _ _ HL.1 HR.1,
           chunk_append _ _ HL.2.1 HR.2.1,
           chunk_append _ _ HL.2.2 HR.2.2⟩

/-- **C2.** For every input string, the token sequence returned by
`Lexer.tokenize` is balanced and properly nested: the count of
BLOCK_QUOTE tokens equals the count of END_BLOCK_QUOTE tokens, LIST
equals END_LIST, and LIST_ITEM equals END_LIST_ITEM, and each close
sentinel follows its matching open sentinel (formally: scanning from
depth 0, no close sentinel ever appears with no matching open sentinel
pending, which is the prefix-dominance property checked by `balOk`).
This holds for every input, with or without a trailing newline, because
the tokenizer flushes all open contexts at blank lines and at end of
input. -/
theorem c2_sentinels_balanced (text : String) :
    cntTok Tok.BLOCK_QUOTE (tokenize text) = cntTok Tok.END_BLOCK_QUOTE (tokenize text) ∧
    cntTok Tok.LIST (tokenize text) = cntTok Tok.END_LIST (tokenize text) ∧
    cntTok Tok.LIST_ITEM (tokenize text) = cntTok Tok.END_LIST_ITEM (tokenize text) ∧
    balOk Tok.BLOCK_QUOTE Tok.END_BLOCK_QUOTE 0 (tokenize text) = true ∧
    balOk Tok.LIST Tok.END_LIST 0 (tokenize text) = true ∧
    balOk Tok.LIST_ITEM Tok.END_LIST_ITEM 0 (tokenize text) = true := by
  have Hmain : balOk Tok.BLOCK_QUOTE Tok.END_BLOCK_QUOTE 0 (tokenize text) = true ∧
      creditAfter Tok.BLOCK_QUOTE Tok.END_BLOCK_QUOTE 0 (tokenize text) = 0 := by
    rw [tokenize]
    have HT := tokenizeLines_chunks (lexLines text) ⟨0, [], 0⟩
    rcases ht : tokenizeLines ⟨0, [], 0⟩ (lexLines text) with ⟨ts, sf⟩
    rw [ht] at HT
    simp only at HT ⊢
    exact chunk_append _ _ HT.1 (resetContext_chunks sf).1
  have HmainL : balOk Tok.LIST Tok.END_LIST 0 (tokenize text) = true ∧
      creditAfter Tok.LIST Tok.END_LIST 0 (tokenize text) = 0 := by
    rw [tokenize]
    have HT := tokenizeLines_chunks (lexLines text) ⟨0, [], 0⟩
    rcases ht : tokenizeLines ⟨0, [], 0⟩ (lexLines text) with ⟨ts, sf⟩
    rw [ht] at HT
    simp only at HT ⊢
    exact chunk_append _ _ HT.2.1 (resetContext_chunks sf).2.1
  have HmainLI : balOk Tok.LIST_ITEM Tok.END_LIST_ITEM 0 (tokenize text) = true ∧
      creditAfter Tok.LIST_ITEM Tok.END_LIST_ITEM 0 (tokenize text) = 0 := by
    rw [tokenize]
    have HT := tokenizeLines_chunks (lexLines text) ⟨0, [], 0⟩
    rcases ht : tokenizeLines ⟨0, [], 0⟩ (lexLines text) with ⟨ts, sf⟩
    rw [ht] at HT
    simp only at HT ⊢
    exact chunk_append _ _ HT.2.2 (resetContext_chunks sf).2.2
  have Hcnt := cnt_of_balOk Tok.BLOCK_QUOTE Tok.END_BLOCK_QUOTE (fun h => nomatch h)
    (tokenize text) 0 Hmain.1
  have HcntL := cnt_of_balOk Tok.LIST Tok.END_LIST (fun h => nomatch h)
    (tokenize text) 0 HmainL.1
  have HcntLI := cnt_of_balOk Tok.LIST_ITEM Tok.END_LIST_ITEM (fun h => nomatch h)
    (tokenize text) 0 HmainLI.1
  rw [Hmain.2] at Hcnt
  rw [HmainL.2] at HcntL
  rw [HmainLI.2] at HcntLI
  exact ⟨by omega, by omega, by omega, Hmain.1, HmainL.1, HmainLI.1⟩

end ScribeDown
